import Mathlib

/-!
Verification development for the js-klve JavaScript tracer.

The definitions below are a shallow embedding of the tracer's source:

* `trace.ts` — the value describer (`describe` / `undescribe`), the runtime
  reporter (`report`), and the `ForStatement` branch of the instrumenting
  Babel plugin (`Statement.enter`);
* `filter-steps.ts` — the post-execution filter pipeline (`fillConfig`,
  `fillNameConfig`, `extractStepNames`, `passesNameFilter`,
  `buildNodeLookup`, `stripData`, `filterSteps`);
* `index.ts` (record) — the renumbering pass;
* `verify-options/index.ts` — semantic option validation;
* `id.ts` / `langs.ts` — the static tracer identity.

JavaScript runtime values are modelled by `JSValue` over an explicit
store (`Store`): primitives are carried directly, objects are addresses
into the store.  A store object carries the attributes the describer's
type-detection actually inspects (`typeof value === 'function'`,
`'then' in value && 'catch' in value`, `Array.isArray`, `constructor.name`)
together with its enumerable own properties (`Object.entries`).  Symbols
carry an identity (`uid`) besides their description, since `Symbol(x)`
always creates a fresh symbol; `undescribe` draws uids from a counter of
fresh ones.  Numbers are modelled as integers (no arithmetic is performed
on them anywhere in the pipeline).

The describer recurses through a possibly cyclic object graph, terminating
via the writer map; the embedding makes this explicit with a fuel
parameter, returning `none` when fuel runs out (callers pass
`store.length + 1`, which is always sufficient).
-/

set_option linter.unusedVariables false

namespace JsKlve

/-- Runtime JavaScript values over an explicit store of objects. -/
inductive JSValue where
  | str (s : String)
  | bool (b : Bool)
  | num (n : Int)
  | null
  | undef
  | sym (uid : Nat) (descr : Option String)
  | ref (addr : Nat)
deriving DecidableEq, Repr

/-- One heap-allocated JavaScript object: the attributes `describe`'s
type detection reads, plus its enumerable own properties in order. -/
structure StoreObj where
  callable : Bool
  hasThen : Bool
  hasCatch : Bool
  isArray : Bool
  length : Nat
  cname : String
  entries : List (String × JSValue)
deriving DecidableEq, Repr

/-- The runtime object store; `JSValue.ref a` points at `store[a]`. -/
abbrev Store := List StoreObj

/-- Value descriptor node (`ValueDescriptor` in types.ts): a primitive
carried inline, or a compound pointing into the heap. -/
inductive Descriptor where
  | primStr (value : String)
  | primBool (value : Bool)
  | primNum (value : Int)
  | primNull
  | primUndef
  | primSym (str : String)
  | compound (atIdx : Nat)
deriving DecidableEq, Repr

/-- Heap object type tag (`HeapObject.type` in types.ts). -/
inductive HeapType where
  | object
  | function
  | promise
  | array
deriving DecidableEq, Repr

/-- Serialized heap object (`HeapObject` in types.ts). -/
structure HeapObject where
  type : HeapType
  entries : List (String × Descriptor)
  length : Option Nat := none
  cname : Option String := none
deriving DecidableEq, Repr

/-- `Symbol.prototype.toString`: `Symbol(<description or empty>)`. -/
def symbolToString (descr : Option String) : String :=
  "Symbol(" ++ descr.getD "" ++ ")"

/-- The heap object pushed by `describe` for a new compound value, before
its entries are filled in: `{ type: 'object', entries: [] }` mutated by the
type-detection chain (function / promise via `then`+`catch` / array with
`length` / object with `cname`). -/
def heapShell (o : StoreObj) : HeapObject :=
  if o.callable then { type := .function, entries := [] }
  else if o.hasThen && o.hasCatch then { type := .promise, entries := [] }
  else if o.isArray then { type := .array, entries := [], length := some o.length }
  else { type := .object, entries := [], cname := some o.cname }

/-- Lookup in the writer map (JS `Map` from object to heap index),
keyed by store address. -/
def mlookup : List (Nat × Nat) → Nat → Option Nat
  | [], _ => none
  | (k, v) :: rest, a => if k = a then some v else mlookup rest a

mutual

/-- Embedding of `describe(value, heap, map)` from trace.ts.  The JS
version mutates `heap` and `map` in place; here both are threaded through
and returned.  `fuel` bounds the recursion depth through the (possibly
cyclic) object graph; `none` means the fuel ran out or a dangling store
address was hit (impossible for real runtime values). -/
def describeGo (store : Store) (fuel : Nat) (v : JSValue) (heap : List HeapObject)
    (map : List (Nat × Nat)) :
    Option (Descriptor × List HeapObject × List (Nat × Nat)) :=
  match fuel with
  | 0 => none
  | fuel' + 1 =>
    match v with
    | .str s => some (.primStr s, heap, map)
    | .bool b => some (.primBool b, heap, map)
    | .num n => some (.primNum n, heap, map)
    | .null => some (.primNull, heap, map)
    | .undef => some (.primUndef, heap, map)
    | .sym _ d => some (.primSym (symbolToString d), heap, map)
    | .ref a =>
      match mlookup map a with
      | some i => some (.compound i, heap, map)
      | none =>
        match store[a]? with
        | none => none
        | some obj =>
          let atIdx := heap.length
          let map1 := (a, atIdx) :: map
          let heap1 := heap ++ [heapShell obj]
          match describeEntries store fuel' obj.entries heap1 map1 with
          | none => none
          | some (ents, heap2, map2) =>
            some (.compound atIdx, heap2.set atIdx { heapShell obj with entries := ents },
              map2)

/-- The `for (const [key, v] of Object.entries(value))` loop inside
`describe`, describing each property value in order and collecting the
resulting `[key, descriptor]` pairs.  Fuel decreases on each recursive
call (so the mutual recursion is structural); the top-level fuel budget
accounts for it. -/
def describeEntries (store : Store) (fuel : Nat) (entries : List (String × JSValue))
    (heap : List HeapObject) (map : List (Nat × Nat)) :
    Option (List (String × Descriptor) × List HeapObject × List (Nat × Nat)) :=
  match entries with
  | [] => some ([], heap, map)
  | (k, v) :: rest =>
    match fuel with
    | 0 => none
    | fuel' + 1 =>
      match describeGo store fuel' v heap map with
      | none => none
      | some (d, heap1, map1) =>
        match describeEntries store fuel' rest heap1 map1 with
        | none => none
        | some (ds, heap2, map2) => some ((k, d) :: ds, heap2, map2)

end

/-- A fuel budget sufficient to describe any value over the store: every
recursive step either consumes an unvisited store object or one of the
(finitely many) entry slots, each costing at most two fuel units. -/
def describeFuel (store : Store) : Nat :=
  2 * (store.length + (store.map (fun o => o.entries.length)).sum) + 2

/-- Top-level `describe(value)` as used by the reporter: fresh heap and
writer map. -/
def describeVal (store : Store) (v : JSValue) :
    Option (Descriptor × List HeapObject × List (Nat × Nat)) :=
  describeGo store (describeFuel store) v [] []

/-- Characters matched by `.` in the regex `/^Symbol\((.*)\)$/`
(everything except line terminators). -/
def regexDotChar (c : Char) : Bool :=
  c ≠ '\n' && c ≠ '\r' && c ≠ '\u2028' && c ≠ '\u2029'

/-- The match `/^Symbol\((.*)\)$/.exec(str)`: `some m` is the captured
group, `none` a failed match (then `Symbol(undefined)` is created).  The
anchored regex matches exactly the strings `Symbol(` ++ m ++ `)` whose
captured group contains no line terminator; computed on the character
list. -/
def parseSymbolDescr (s : String) : Option String :=
  let cs := s.toList
  if cs.take 7 = "Symbol(".toList ∧ cs.getLast? = some ')' ∧ cs.length ≥ 8 ∧
      ((cs.drop 7).dropLast).all regexDotChar then
    some (String.mk ((cs.drop 7).dropLast))
  else
    none

/-- The placeholder object `undescribe` creates for a heap object before
filling its properties: an opaque function, a never-settling promise, an
array of the recorded length, an instance of a fake constructor named
`cname` (when `cname` is non-empty — JS truthiness), or `{}`. -/
def outShell (ho : HeapObject) : StoreObj :=
  match ho.type with
  | .function =>
    { callable := true, hasThen := false, hasCatch := false, isArray := false,
      length := 0, cname := "Function", entries := [] }
  | .promise =>
    { callable := false, hasThen := true, hasCatch := true, isArray := false,
      length := 0, cname := "Promise", entries := [] }
  | .array =>
    { callable := false, hasThen := false, hasCatch := false, isArray := true,
      length := ho.length.getD 0, cname := "Array", entries := [] }
  | .object =>
    match ho.cname with
    | some c =>
      if c.isEmpty then
        { callable := false, hasThen := false, hasCatch := false, isArray := false,
          length := 0, cname := "Object", entries := [] }
      else
        { callable := false, hasThen := false, hasCatch := false, isArray := false,
          length := 0, cname := c, entries := [] }
    | none =>
      { callable := false, hasThen := false, hasCatch := false, isArray := false,
        length := 0, cname := "Object", entries := [] }

/-- Write `revived[i] = some o`, extending the array with holes as JS
assignment into an array does. -/
def setRevived (r : List (Option StoreObj)) (i : Nat) (o : StoreObj) :
    List (Option StoreObj) :=
  (r ++ List.replicate (i + 1 - r.length) none).set i (some o)

/-- Property assignment `value[key] = v` on the object memoized at
index `i` (appends to its entry list). -/
def appendEntry (r : List (Option StoreObj)) (i : Nat) (k : String) (v : JSValue) :
    List (Option StoreObj) :=
  match r[i]? with
  | some (some o) => r.set i (some { o with entries := o.entries ++ [(k, v)] })
  | _ => r

mutual

/-- Embedding of `undescribe(described, revived)` from trace.ts.  The
revived array is indexed by heap index (`node.at`); its objects live in an
output store whose addresses are exactly the heap indices, so the
returned value for a compound descriptor is `ref i`.  `undescribe`
creates fresh symbols via `Symbol(...)`; freshness is modelled by the
`fresh` uid counter threaded through. -/
def undescribeGo (heap : List HeapObject) (fuel : Nat) (d : Descriptor)
    (revived : List (Option StoreObj)) (fresh : Nat) :
    Option (JSValue × List (Option StoreObj) × Nat) :=
  match fuel with
  | 0 => none
  | fuel' + 1 =>
    match d with
    | .primStr s => some (.str s, revived, fresh)
    | .primBool b => some (.bool b, revived, fresh)
    | .primNum n => some (.num n, revived, fresh)
    | .primNull => some (.null, revived, fresh)
    | .primUndef => some (.undef, revived, fresh)
    | .primSym s => some (.sym fresh (parseSymbolDescr s), revived, fresh + 1)
    | .compound i =>
      match revived[i]? with
      | some (some _) => some (.ref i, revived, fresh)
      | _ =>
        match heap[i]? with
        | none => none
        | some ho =>
          let revived1 := setRevived revived i (outShell ho)
          match undescribeEntries heap fuel' ho.entries revived1 fresh i with
          | none => none
          | some (revived2, fresh2) => some (.ref i, revived2, fresh2)

/-- The `for (const [key, entryNode] of object.entries)` loop inside
`undescribe`: undescribe each entry and assign it as a property of the
object memoized at heap index `i`.  Fuel decreases on each recursive
call (so the mutual recursion is structural). -/
def undescribeEntries (heap : List HeapObject) (fuel : Nat)
    (entries : List (String × Descriptor)) (revived : List (Option StoreObj))
    (fresh : Nat) (i : Nat) : Option (List (Option StoreObj) × Nat) :=
  match entries with
  | [] => some (revived, fresh)
  | (k, de) :: rest =>
    match fuel with
    | 0 => none
    | fuel' + 1 =>
      match undescribeGo heap fuel' de revived fresh with
      | none => none
      | some (v, revived1, fresh1) =>
        undescribeEntries heap fuel' rest (appendEntry revived1 i k v) fresh1 i

end

/-- A fuel budget sufficient to undescribe any descriptor over the
heap. -/
def undescribeFuel (heap : List HeapObject) : Nat :=
  2 * (heap.length + (heap.map (fun o => o.entries.length)).sum) + 2

/-- Top-level `undescribe(described)`: fresh revived array; symbol uids
are drawn starting from `fresh`. -/
def undescribeVal (d : Descriptor) (heap : List HeapObject) (fresh : Nat) :
    Option (JSValue × List (Option StoreObj) × Nat) :=
  undescribeGo heap (undescribeFuel heap) d [] fresh

/-- The round trip performed on every reported value: `describe` at report
time, `undescribe` in the post-execution pass of `executeInstrumented`. -/
def roundtrip (store : Store) (v : JSValue) (fresh : Nat) :
    Option (JSValue × List (Option StoreObj) × Nat) :=
  match describeVal store v with
  | none => none
  | some (d, heap, _) => undescribeVal d heap fresh

/-- The value component of the round trip. -/
def roundtripVal (store : Store) (v : JSValue) (fresh : Nat) : Option JSValue :=
  (roundtrip store v fresh).map (fun r => r.1)

/-! ### Steps and options (types.ts) -/

/-- Step category. -/
inductive Category where
  | init
  | statement
  | expression
deriving DecidableEq, Repr

/-- Timing phase of a step. -/
inductive Timing where
  | before
  | after
deriving DecidableEq, Repr

/-- A line/column position (line 1-indexed, column 0-indexed). -/
structure Position where
  line : Int
  column : Int
deriving DecidableEq, Repr

/-- ESTree source location (`SourceLocation` in types.ts). -/
structure SourceLocation where
  start : Position
  «end» : Position
deriving DecidableEq, Repr

/-- Static AST metadata of a step (`JsKlveDetail` in types.ts).  The
source field `prefix` is called `prefixFlag` here.  Fields typed
`string | null` in TS are `Option (Option String)`: the outer layer is
presence, the inner layer is null vs. string. -/
structure Detail where
  action : Option String := none
  operator : Option String := none
  prefixFlag : Option Bool := none
  kind : Option String := none
  computed : Option Bool := none
  name : Option (Option String) := none
  arity : Option Int := none
  target : Option (Option String) := none
  property : Option (Option String) := none
  callee : Option (Option String) := none
  method : Option Bool := none
  optional : Option Bool := none
  async : Option Bool := none
  generator : Option Bool := none
  hasAlternate : Option Bool := none
  hasCatch : Option Bool := none
  hasFinally : Option Bool := none
  hasInit : Option Bool := none
  hasTest : Option Bool := none
  hasUpdate : Option Bool := none
  expressionBody : Option Bool := none
  elementCount : Option Int := none
  propertyCount : Option Int := none
deriving DecidableEq, Repr

/-- A trace step (`RawStep` in types.ts; `JsKlveStep` has the same
shape).  `U` stands for the TS `unknown` payload of scope values, the
reported value, and log lines. -/
structure RawStep (U : Type) where
  step : Int
  category : Category
  type : Option String := none
  time : Option Timing := none
  dt : Option Int := none
  loc : Option SourceLocation := none
  scopes : Option (List (List (String × U))) := none
  value : Option U := none
  logs : Option (List (List U)) := none
  detail : Option Detail := none
deriving DecidableEq, Repr

/-- Filtered step type; structurally identical to `RawStep`. -/
abbrev JsKlveStep (U : Type) := RawStep U

/-- Name filter options (`JsKlveNameConfig` in types.ts, `NameFilter` in
verify-options/types.ts). -/
structure NameConfig where
  «include» : Option (List String) := none
  exclude : Option (List String) := none
deriving DecidableEq, Repr

/-- Timing filter options. -/
structure TimingConfig where
  before : Option Bool := none
  after : Option Bool := none
deriving DecidableEq, Repr

/-- Data field options. -/
structure DataConfig where
  scopes : Option Bool := none
  value : Option Bool := none
  logs : Option Bool := none
  dt : Option Bool := none
  loc : Option Bool := none
deriving DecidableEq, Repr

/-- Output filter options (`JsKlveFilterConfig`). -/
structure FilterConfig where
  names : Option NameConfig := none
  timing : Option TimingConfig := none
  data : Option DataConfig := none
deriving DecidableEq, Repr

/-- Node type toggles, `declarations` group. -/
structure DeclarationsConfig where
  «variable» : Option Bool := none
deriving DecidableEq, Repr

/-- Node type toggles, `loops` group. -/
structure LoopsConfig where
  «for» : Option Bool := none
  «while» : Option Bool := none
deriving DecidableEq, Repr

/-- Node type toggles, `conditionals` group. -/
structure ConditionalsConfig where
  «if» : Option Bool := none
  ternary : Option Bool := none
deriving DecidableEq, Repr

/-- Node type toggles, `blocks` group. -/
structure BlocksConfig where
  «try» : Option Bool := none
  expressionStatement : Option Bool := none
deriving DecidableEq, Repr

/-- Node type toggles, `calls` group. -/
structure CallsConfig where
  call : Option Bool := none
  «new» : Option Bool := none
deriving DecidableEq, Repr

/-- Node type toggles, `access` group. -/
structure AccessConfig where
  member : Option Bool := none
  identifier : Option Bool := none
deriving DecidableEq, Repr

/-- Node type toggles, `operators` group. -/
structure OperatorsConfig where
  binary : Option Bool := none
  unary : Option Bool := none
  logical : Option Bool := none
  assignment : Option Bool := none
  update : Option Bool := none
  sequence : Option Bool := none
deriving DecidableEq, Repr

/-- Node type toggles, `literals` group. -/
structure LiteralsConfig where
  numeric : Option Bool := none
  string : Option Bool := none
  boolean : Option Bool := none
  array : Option Bool := none
  object : Option Bool := none
deriving DecidableEq, Repr

/-- Node type toggles, `functions` group. -/
structure FunctionsConfig where
  arrow : Option Bool := none
  expression : Option Bool := none
deriving DecidableEq, Repr

/-- Tracer options (`JsKlveOptions` in types.ts). -/
structure Options where
  declarations : Option DeclarationsConfig := none
  loops : Option LoopsConfig := none
  conditionals : Option ConditionalsConfig := none
  blocks : Option BlocksConfig := none
  calls : Option CallsConfig := none
  access : Option AccessConfig := none
  operators : Option OperatorsConfig := none
  literals : Option LiteralsConfig := none
  functions : Option FunctionsConfig := none
  filter : Option FilterConfig := none
deriving DecidableEq, Repr

/-! ### Resolved filter configuration (filter-steps.ts) -/

/-- Resolved `declarations` toggles. -/
structure RDeclarations where
  «variable» : Bool
deriving DecidableEq, Repr

/-- Resolved `loops` toggles. -/
structure RLoops where
  «for» : Bool
  «while» : Bool
deriving DecidableEq, Repr

/-- Resolved `conditionals` toggles. -/
structure RConditionals where
  «if» : Bool
  ternary : Bool
deriving DecidableEq, Repr

/-- Resolved `blocks` toggles. -/
structure RBlocks where
  «try» : Bool
  expressionStatement : Bool
deriving DecidableEq, Repr

/-- Resolved `calls` toggles. -/
structure RCalls where
  call : Bool
  «new» : Bool
deriving DecidableEq, Repr

/-- Resolved `access` toggles. -/
structure RAccess where
  member : Bool
  identifier : Bool
deriving DecidableEq, Repr

/-- Resolved `operators` toggles. -/
structure ROperators where
  binary : Bool
  unary : Bool
  logical : Bool
  assignment : Bool
  update : Bool
  sequence : Bool
deriving DecidableEq, Repr

/-- Resolved `literals` toggles. -/
structure RLiterals where
  numeric : Bool
  string : Bool
  boolean : Bool
  array : Bool
  object : Bool
deriving DecidableEq, Repr

/-- Resolved `functions` toggles. -/
structure RFunctions where
  arrow : Bool
  expression : Bool
deriving DecidableEq, Repr

/-- Fully resolved node config (`ResolvedNodeConfig`). -/
structure ResolvedNodeConfig where
  declarations : RDeclarations
  loops : RLoops
  conditionals : RConditionals
  blocks : RBlocks
  calls : RCalls
  access : RAccess
  operators : ROperators
  literals : RLiterals
  functions : RFunctions
deriving DecidableEq, Repr

/-- Name filter mode. -/
inductive NameMode where
  | «include»
  | exclude
  | none
deriving DecidableEq, Repr

/-- Resolved name filter config (`ResolvedNameConfig`).  The JS `Set` of
names is modelled as the list it was built from; only membership is ever
queried. -/
structure ResolvedNameConfig where
  mode : NameMode
  names : List String
deriving DecidableEq, Repr

/-- Resolved timing config. -/
structure ResolvedTimingConfig where
  before : Bool
  after : Bool
deriving DecidableEq, Repr

/-- Resolved data config. -/
structure ResolvedDataConfig where
  scopes : Bool
  value : Bool
  logs : Bool
  dt : Bool
  loc : Bool
deriving DecidableEq, Repr

/-- Fully resolved filter config (`ResolvedFilterConfig`). -/
structure ResolvedFilterConfig where
  nodes : ResolvedNodeConfig
  names : ResolvedNameConfig
  timing : ResolvedTimingConfig
  data : ResolvedDataConfig
deriving DecidableEq, Repr

/-- Default filter configuration (all enabled), from filter-steps.ts. -/
def DEFAULT_FILTER_CONFIG : ResolvedFilterConfig :=
  { nodes :=
      { declarations := { «variable» := true }
        loops := { «for» := true, «while» := true }
        conditionals := { «if» := true, ternary := true }
        blocks := { «try» := true, expressionStatement := true }
        calls := { call := true, «new» := true }
        access := { member := true, identifier := true }
        operators :=
          { binary := true, unary := true, logical := true, assignment := true,
            update := true, sequence := true }
        literals :=
          { numeric := true, string := true, boolean := true, array := true,
            object := true }
        functions := { arrow := true, expression := true } }
    names := { mode := NameMode.none, names := [] }
    timing := { before := true, after := true }
    data := { scopes := true, value := true, logs := true, dt := true, loc := true } }

/-- JS truthiness test `x && x.length > 0` for an optional array. -/
def nonEmptyList (l : Option (List String)) : Bool :=
  match l with
  | some l' => !l'.isEmpty
  | none => false

/-- Embedding of `fillNameConfig` from filter-steps.ts: resolves the name
filter to a mode plus name set; a non-empty `include` wins over
`exclude`. -/
def fillNameConfig (config : Option NameConfig) : ResolvedNameConfig :=
  match config with
  | none => { mode := NameMode.none, names := [] }
  | some cfg =>
    if nonEmptyList cfg.«include» then
      { mode := NameMode.«include», names := cfg.«include».getD [] }
    else if nonEmptyList cfg.exclude then
      { mode := NameMode.exclude, names := cfg.exclude.getD [] }
    else
      { mode := NameMode.none, names := [] }

/-- Embedding of `fillNodes` from filter-steps.ts: fills missing node
type toggles with defaults (`options.group?.field ?? default`). -/
def fillNodes (options : Options) : ResolvedNodeConfig :=
  let d := DEFAULT_FILTER_CONFIG.nodes
  { declarations :=
      { «variable» :=
          (options.declarations.bind (fun g => g.«variable»)).getD
            d.declarations.«variable» }
    loops :=
      { «for» := (options.loops.bind (fun g => g.«for»)).getD d.loops.«for»
        «while» := (options.loops.bind (fun g => g.«while»)).getD d.loops.«while» }
    conditionals :=
      { «if» := (options.conditionals.bind (fun g => g.«if»)).getD d.conditionals.«if»
        ternary :=
          (options.conditionals.bind (fun g => g.ternary)).getD d.conditionals.ternary }
    blocks :=
      { «try» := (options.blocks.bind (fun g => g.«try»)).getD d.blocks.«try»
        expressionStatement :=
          (options.blocks.bind (fun g => g.expressionStatement)).getD
            d.blocks.expressionStatement }
    calls :=
      { call := (options.calls.bind (fun g => g.call)).getD d.calls.call
        «new» := (options.calls.bind (fun g => g.«new»)).getD d.calls.«new» }
    access :=
      { member := (options.access.bind (fun g => g.member)).getD d.access.member
        identifier :=
          (options.access.bind (fun g => g.identifier)).getD d.access.identifier }
    operators :=
      { binary := (options.operators.bind (fun g => g.binary)).getD d.operators.binary
        unary := (options.operators.bind (fun g => g.unary)).getD d.operators.unary
        logical :=
          (options.operators.bind (fun g => g.logical)).getD d.operators.logical
        assignment :=
          (options.operators.bind (fun g => g.assignment)).getD d.operators.assignment
        update :=
          (options.operators.bind (fun g => g.update)).getD d.operators.update
        sequence :=
          (options.operators.bind (fun g => g.sequence)).getD d.operators.sequence }
    literals :=
      { numeric := (options.literals.bind (fun g => g.numeric)).getD d.literals.numeric
        string := (options.literals.bind (fun g => g.string)).getD d.literals.string
        boolean :=
          (options.literals.bind (fun g => g.boolean)).getD d.literals.boolean
        array := (options.literals.bind (fun g => g.array)).getD d.literals.array
        object := (options.literals.bind (fun g => g.object)).getD d.literals.object }
    functions :=
      { arrow := (options.functions.bind (fun g => g.arrow)).getD d.functions.arrow
        expression :=
          (options.functions.bind (fun g => g.expression)).getD
            d.functions.expression } }

/-- Embedding of `fillConfig` from filter-steps.ts. -/
def fillConfig (options : Options) : ResolvedFilterConfig :=
  let d := DEFAULT_FILTER_CONFIG
  { nodes := fillNodes options
    names := fillNameConfig (options.filter.bind (fun f => f.names))
    timing :=
      { before :=
          ((options.filter.bind (fun f => f.timing)).bind (fun t => t.before)).getD
            d.timing.before
        after :=
          ((options.filter.bind (fun f => f.timing)).bind (fun t => t.after)).getD
            d.timing.after }
    data :=
      { scopes :=
          ((options.filter.bind (fun f => f.data)).bind (fun x => x.scopes)).getD
            d.data.scopes
        value :=
          ((options.filter.bind (fun f => f.data)).bind (fun x => x.value)).getD
            d.data.value
        logs :=
          ((options.filter.bind (fun f => f.data)).bind (fun x => x.logs)).getD
            d.data.logs
        dt :=
          ((options.filter.bind (fun f => f.data)).bind (fun x => x.dt)).getD
            d.data.dt
        loc :=
          ((options.filter.bind (fun f => f.data)).bind (fun x => x.loc)).getD
            d.data.loc } }

/-- Embedding of `extractStepNames` from filter-steps.ts: the string-typed
`name`, `target`, `callee`, `property` detail fields, in that order. -/
def extractStepNames {U : Type} (step : RawStep U) : List String :=
  match step.detail with
  | none => []
  | some d =>
    (match d.name with | some (some s) => [s] | _ => []) ++
    (match d.target with | some (some s) => [s] | _ => []) ++
    (match d.callee with | some (some s) => [s] | _ => []) ++
    (match d.property with | some (some s) => [s] | _ => [])

/-- Embedding of `passesNameFilter` from filter-steps.ts. -/
def passesNameFilter {U : Type} (step : RawStep U) (nameConfig : ResolvedNameConfig) :
    Bool :=
  if nameConfig.mode = NameMode.none then true
  else if step.category = Category.init then true
  else
    let names := extractStepNames step
    if names.isEmpty then true
    else if nameConfig.mode = NameMode.«include» then
      names.any (fun n => nameConfig.names.contains n)
    else
      !(names.any (fun n => nameConfig.names.contains n))

/-- The `CONFIG_TO_AST` table of ast-map.ts: config path (dot-separated,
matching the `JsKlveNodeConfig` structure) → literal AST node type name,
as an association list in the object's insertion order. -/
def CONFIG_TO_AST : List (String × String) :=
  [("declarations.variable", "VariableDeclaration"),
   ("loops.for", "ForStatement"),
   ("loops.while", "WhileStatement"),
   ("conditionals.if", "IfStatement"),
   ("conditionals.ternary", "ConditionalExpression"),
   ("blocks.try", "TryStatement"),
   ("blocks.expressionStatement", "ExpressionStatement"),
   ("calls.call", "CallExpression"),
   ("calls.new", "NewExpression"),
   ("access.member", "MemberExpression"),
   ("access.identifier", "Identifier"),
   ("operators.binary", "BinaryExpression"),
   ("operators.unary", "UnaryExpression"),
   ("operators.logical", "LogicalExpression"),
   ("operators.assignment", "AssignmentExpression"),
   ("operators.update", "UpdateExpression"),
   ("operators.sequence", "SequenceExpression"),
   ("literals.numeric", "NumericLiteral"),
   ("literals.string", "StringLiteral"),
   ("literals.boolean", "BooleanLiteral"),
   ("literals.array", "ArrayExpression"),
   ("literals.object", "ObjectExpression"),
   ("functions.arrow", "ArrowFunctionExpression"),
   ("functions.expression", "FunctionExpression")]

/-- The `AST_TO_CONFIG` map of ast-map.ts, inverted from `CONFIG_TO_AST`
entry by entry (`Object.fromEntries(Object.entries(CONFIG_TO_AST).map(
([configPath, astType]) => [astType, configPath]))`); the AST types are
pairwise distinct, so the association list realizes the same lookup. -/
def AST_TO_CONFIG : List (String × String) :=
  CONFIG_TO_AST.map (fun e => (e.2, e.1))

/-- The flattened `flatConfig` record built inside `buildNodeLookup`. -/
def flatConfig (nodes : ResolvedNodeConfig) : List (String × Bool) :=
  [("declarations.variable", nodes.declarations.«variable»),
   ("loops.for", nodes.loops.«for»),
   ("loops.while", nodes.loops.«while»),
   ("conditionals.if", nodes.conditionals.«if»),
   ("conditionals.ternary", nodes.conditionals.ternary),
   ("blocks.try", nodes.blocks.«try»),
   ("blocks.expressionStatement", nodes.blocks.expressionStatement),
   ("calls.call", nodes.calls.call),
   ("calls.new", nodes.calls.«new»),
   ("access.member", nodes.access.member),
   ("access.identifier", nodes.access.identifier),
   ("operators.binary", nodes.operators.binary),
   ("operators.unary", nodes.operators.unary),
   ("operators.logical", nodes.operators.logical),
   ("operators.assignment", nodes.operators.assignment),
   ("operators.update", nodes.operators.update),
   ("operators.sequence", nodes.operators.sequence),
   ("literals.numeric", nodes.literals.numeric),
   ("literals.string", nodes.literals.string),
   ("literals.boolean", nodes.literals.boolean),
   ("literals.array", nodes.literals.array),
   ("literals.object", nodes.literals.object),
   ("functions.arrow", nodes.functions.arrow),
   ("functions.expression", nodes.functions.expression)]

/-- Embedding of `buildNodeLookup` from filter-steps.ts, as the function
the built record represents: `result[astType] = flatConfig[configPath] ??
true`, `none` for AST types outside the table (JS `undefined`). -/
def buildNodeLookup (nodes : ResolvedNodeConfig) (astType : String) : Option Bool :=
  (AST_TO_CONFIG.find? (fun e => e.1 == astType)).map
    (fun e =>
      (((flatConfig nodes).find? (fun p => p.1 == e.2)).map (fun p => p.2)).getD true)

/-- Embedding of `stripData` from filter-steps.ts: copies `step`,
`category`, and (when present) `type`, `time`, `detail`; copies `loc`,
`dt`, `scopes`, `value`, `logs` only when enabled in the data config. -/
def stripData {U : Type} (step : RawStep U) (dataConfig : ResolvedDataConfig) :
    JsKlveStep U :=
  { step := step.step
    category := step.category
    type := step.type
    time := step.time
    loc := if dataConfig.loc then step.loc else none
    dt := if dataConfig.dt then step.dt else none
    scopes := if dataConfig.scopes then step.scopes else none
    value := if dataConfig.value then step.value else none
    logs := if dataConfig.logs then step.logs else none
    detail := step.detail }

/-- The timing toggle selected by `filled.timing[step.time]`. -/
def timingEnabled (tc : ResolvedTimingConfig) : Timing → Bool
  | .before => tc.before
  | .after => tc.after

/-- The inner `passesNodeAndTimingFilters` closure of `filterSteps`. -/
def passesNodeAndTimingFilters {U : Type} (filled : ResolvedFilterConfig)
    (step : RawStep U) : Bool :=
  if step.category = Category.init then true
  else if (match step.time with
           | some t => !timingEnabled filled.timing t
           | none => false) then false
  else if (match step.type with
           | some ty => buildNodeLookup filled.nodes ty == some false
           | none => false) then false
  else true

/-- Embedding of `filterSteps` from filter-steps.ts. -/
def filterSteps {U : Type} (steps : List (RawStep U)) (config : Options) :
    List (JsKlveStep U) :=
  let filled := fillConfig config
  ((steps.filter (fun s => passesNodeAndTimingFilters filled s)).filter
      (fun s => passesNameFilter s filled.names)).map
    (fun s => stripData s filled.data)

/-- The renumbering pass of `record` (record/index.ts): assigns
`step := index + 1` in order.  `renumberFrom 1` is the embedding of
`steps.map((step, index) => ({ ...step, step: index + 1 }))`. -/
def renumberFrom {U : Type} (n : Int) : List (JsKlveStep U) → List (JsKlveStep U)
  | [] => []
  | s :: rest => { s with step := n } :: renumberFrom (n + 1) rest

/-- The post-processing pipeline of `record` (record/index.ts): filter
according to options, then renumber starting at 1. -/
def recordSteps {U : Type} (raw : List (RawStep U)) (options : Options) :
    List (JsKlveStep U) :=
  renumberFrom 1 (filterSteps raw options)

/-! ### Reporter (trace.ts, `executeInstrumented`) -/

/-- Execution limits passed to `trace` (milliseconds modelled as `Nat`;
`none` is the JS `null` that disables a limit). -/
structure Limits where
  maxSteps : Option Nat := none
  maxTime : Option Nat := none
deriving DecidableEq, Repr

/-- A `LimitExceededError`: its kind (`"time"` or `"steps"`) and the
observed magnitude passed to the constructor. -/
structure LimitError where
  kind : String
  observed : Nat
deriving DecidableEq, Repr

/-- The seed step of `_steps`: `[{ category: 'init', step: 0 }]`. -/
def initStep (U : Type) : RawStep U :=
  { step := 0, category := Category.init }

/-- The metadata payload built by the transformer's `meta`/`REPORT`
helpers and passed to `report`: `{ category, time, loc, type, scopes,
detail }`, with `category` chosen by `t.isExpression(node)`. -/
structure Meta (U : Type) where
  isExpressionNode : Bool
  type : String
  time : Timing
  loc : Option SourceLocation := none
  scopes : List (List (String × U)) := []
  detail : Detail := {}
deriving DecidableEq, Repr

/-- The step object as it sits in `_steps` after `report` pushed the
meta payload and filled in `dt`, `step`, `value` and `logs`. -/
def metaToStep {U : Type} (m : Meta U) (dtv : Nat) (idx : Int) (value : U)
    (logs : List (List U)) : RawStep U :=
  { step := idx
    category := if m.isExpressionNode then Category.expression else Category.statement
    type := some m.type
    time := some m.time
    dt := some (dtv : Int)
    loc := m.loc
    scopes := some m.scopes
    value := some value
    logs := some logs
    detail := some m.detail }

/-- Embedding of `report(value, meta)` from trace.ts, acting on the
`_steps` list.  `dtv` is the elapsed time `Date.now() - _t0` observed for
this call; `value` is the already-described value and `logs` the drained
log queue.  Raises (returns `.error`) a time `LimitExceededError` when
`maxTime` is set and exceeded, else a steps `LimitExceededError` with
magnitude `_steps.length + 1` when `maxSteps` is set and
`_steps.length ≥ maxSteps`; otherwise pushes the new step with
`meta.step = _steps.length` (the index of the pushed entry). -/
def report {U : Type} (limits : Limits) (dtv : Nat) (steps : List (RawStep U))
    (m : Meta U) (value : U) (logs : List (List U)) :
    Except LimitError (List (RawStep U)) :=
  if (match limits.maxTime with
      | some t => decide (dtv > t)
      | none => false) then
    Except.error { kind := "time", observed := dtv }
  else if (match limits.maxSteps with
           | some k => decide (steps.length ≥ k)
           | none => false) then
    Except.error { kind := "steps", observed := steps.length + 1 }
  else
    Except.ok (steps ++ [metaToStep m dtv (Int.ofNat steps.length) value logs])

/-- The step lists reachable by an instrumented execution: `_steps`
starts as `[initStep]` and grows only through successful `report`
calls. -/
inductive ReporterReachable {U : Type} (limits : Limits) : List (RawStep U) → Prop where
  | seed : ReporterReachable limits [initStep U]
  | step {steps : List (RawStep U)} {m : Meta U} {dtv : Nat} {value : U}
      {logs : List (List U)} {steps' : List (RawStep U)} :
      ReporterReachable limits steps →
      report limits dtv steps m value logs = Except.ok steps' →
      ReporterReachable limits steps'

/-! ### Semantic option validation (verify-options, src/unnamed/part_001) -/

/-- Embedding of `verifyOptions(options)`: throws
`OptionsSemanticInvalidError` (here `.error` with the message) precisely
when both `filter.names.include` and `filter.names.exclude` are non-empty
arrays.  The dynamic `typeof`/`Array.isArray` guards of the source are
subsumed by the typed options model. -/
def verifyOptions (options : Options) : Except String Unit :=
  match options.filter with
  | none => Except.ok ()
  | some filter =>
    match filter.names with
    | none => Except.ok ()
    | some names =>
      let hasInclude := nonEmptyList names.«include»
      let hasExclude := nonEmptyList names.exclude
      if hasInclude && hasExclude then
        Except.error
          "filter.names.include and filter.names.exclude are mutually exclusive"
      else
        Except.ok ()

/-! ### Static tracer identity (id.ts — src/unnamed/part_000 — and langs.ts) -/

/-- Tracer identifier from id.ts (`const id = 'js:klve'`). -/
def tracerId : String := "js:klve"

/-- Supported file extensions from langs.ts. -/
def langs : List String := ["js", "mjs", "cjs"]

/-- The static part of the `TracerModule` assembled in the package entry
point (`Object.freeze`-immutability is inherent in the model). -/
structure TracerIdentity where
  id : String
  langs : List String
deriving DecidableEq, Repr

/-- The tracer identity tuple wired up in index.ts. -/
def tracer : TracerIdentity :=
  { id := tracerId, langs := langs }

/-! ### The `ForStatement` rewrite of the instrumenting transformer
(trace.ts, `Statement.enter`) -/

/-- Miniature Babel expression AST, covering the nodes the `for`/`while`
rewrites build.  `reportBefore e` is the node `e` with its
`_reportBefore` flag set. -/
inductive Expr where
  | ident (name : String)
  | nullLit
  | boolLit (b : Bool)
  | numLit (n : Int)
  | assign (op : String) (left : Expr) (right : Expr)
  | unary (op : String) (argument : Expr)
  | member (obj : Expr) (property : Expr) (computed : Bool)
  | reportBefore (e : Expr)
deriving DecidableEq, Repr

/-- A `for` initializer: a variable declaration
(`kind`, declarators as name/init pairs) or an expression. -/
inductive ForInit where
  | decl (kind : String) (decls : List (String × Option Expr))
  | expr (e : Expr)
deriving DecidableEq, Repr

/-- Miniature Babel statement AST. -/
inductive Stmt where
  | exprStmt (e : Expr)
  | varDecl (kind : String) (decls : List (String × Option Expr))
  | whileStmt (test : Expr) (body : Stmt)
  | forStmt (finit : Option ForInit) (test : Option Expr) (update : Option Expr)
      (body : Stmt)
  | ifStmt (test : Expr) (consequent : Stmt) (alternate : Option Stmt)
  | breakStmt
  | block (body : List Stmt)

/-- `NS.cache[k]` produced by `makeTemporaryVariable`. -/
def temporaryVariable (ns : String) (cacheId : Int) : Expr :=
  Expr.member (Expr.ident (ns ++ ".cache")) (Expr.numLit cacheId) true

/-- The JS statement `forNode.test._reportBefore = true` (and likewise
for `update`): setting a property on `null` throws a `TypeError`. -/
def setReportBefore (e : Option Expr) : Except String Expr :=
  match e with
  | none => Except.error "TypeError: cannot set _reportBefore of null"
  | some e' => Except.ok (Expr.reportBefore e')

/-- Embedding of the `t.isForStatement(path.node)` branch of
`Statement.enter` in trace.ts: computes `initAsStatement` (handling an
absent initializer with a `null`-literal expression statement), creates a
temporary, marks `test` and `update` with `_reportBefore`
(unconditionally — this throws when either is absent), and produces the
replacement block
`{ init; while (true) { tmp = test; if (!tmp) break; body; update; } }`.
The `_reportBefore`-marked `test`/`update` are wrapped by the later
`Expression` visitor into reporter calls; the markings are what the
rewrite itself establishes. -/
def forStatementEnter (ns : String) (cacheId : Int) (finit : Option ForInit)
    (test : Option Expr) (update : Option Expr) (body : Stmt) :
    Except String Stmt := do
  let initAsStatement : Stmt :=
    match finit with
    | some (ForInit.decl kind decls) => Stmt.varDecl kind decls
    | some (ForInit.expr e) => Stmt.exprStmt e
    | none => Stmt.exprStmt Expr.nullLit
  let tmp := temporaryVariable ns cacheId
  let test' ← setReportBefore test
  let update' ← setReportBefore update
  return Stmt.block
    [initAsStatement,
     Stmt.whileStmt (Expr.boolLit true)
       (Stmt.block
         [Stmt.exprStmt (Expr.assign "=" tmp test'),
          Stmt.ifStmt (Expr.unary "!" tmp) Stmt.breakStmt none,
          body,
          Stmt.exprStmt update'])]

/-! ### Spec-side definitions

These definitions follow the wording of the specification (not the
source); they exist to be compared against the source embeddings in
refinement-style theorems. -/

/-- Spec-side candidate names of a step: "the string-typed detail fields
`name`, `target`, `callee`, and `property`". -/
def specCandidateNames {U : Type} (step : RawStep U) : List String :=
  match step.detail with
  | none => []
  | some d =>
    (match d.name with | some (some s) => [s] | _ => []) ++
    (match d.target with | some (some s) => [s] | _ => []) ++
    (match d.callee with | some (some s) => [s] | _ => []) ++
    (match d.property with | some (some s) => [s] | _ => [])

/-- Spec-side mode resolution: "`include` if include is a non-empty
list, else `exclude` if exclude is non-empty, else `none`". -/
def specResolveMode (cfg : Option NameConfig) : NameMode :=
  if nonEmptyList (cfg.bind (fun c => c.«include»)) then NameMode.«include»
  else if nonEmptyList (cfg.bind (fun c => c.exclude)) then NameMode.exclude
  else NameMode.none

/-- Spec-side name-filter keep decision: init steps and steps without
candidate names are always kept; otherwise mode `include` keeps iff some
candidate is in the set, mode `exclude` keeps iff no candidate is, mode
`none` keeps. -/
def specNameKeep {U : Type} (step : RawStep U) (cfg : Option NameConfig) : Bool :=
  if step.category = Category.init then true
  else
    let cands := specCandidateNames step
    if cands.isEmpty then true
    else
      match specResolveMode cfg with
      | NameMode.«include» =>
        cands.any (fun n => ((cfg.bind (fun c => c.«include»)).getD []).contains n)
      | NameMode.exclude =>
        !(cands.any (fun n => ((cfg.bind (fun c => c.exclude)).getD []).contains n))
      | NameMode.none => true

/-! ### Configuration restrictions (for the filter monotonicity claim) -/

/-- The options object with `filter.timing.before` set to `b`. -/
def withTimingBefore (o : Options) (b : Bool) : Options :=
  let f := o.filter.getD {}
  { o with filter := some { f with timing := some { f.timing.getD {} with before := some b } } }

/-- The options object with `filter.timing.after` set to `b`. -/
def withTimingAfter (o : Options) (b : Bool) : Options :=
  let f := o.filter.getD {}
  { o with filter := some { f with timing := some { f.timing.getD {} with after := some b } } }

/-- The options object with `filter.names.include` set to `l`. -/
def withIncludeNames (o : Options) (l : List String) : Options :=
  let f := o.filter.getD {}
  { o with filter := some { f with names := some { f.names.getD {} with «include» := some l } } }

/-- The options object with `filter.names.exclude` set to `l`. -/
def withExcludeNames (o : Options) (l : List String) : Options :=
  let f := o.filter.getD {}
  { o with filter := some { f with names := some { f.names.getD {} with exclude := some l } } }

/-- The effective `filter.names.include` list of an options object
(empty when absent). -/
def includeListOf (o : Options) : List String :=
  (((o.filter.bind (fun f => f.names)).bind (fun n => n.«include»))).getD []

/-- The effective `filter.names.exclude` list of an options object
(empty when absent). -/
def excludeListOf (o : Options) : List String :=
  (((o.filter.bind (fun f => f.names)).bind (fun n => n.exclude))).getD []

/-- One of the 24 node-type toggles. -/
inductive NodePath where
  | declarationsVariable
  | loopsFor
  | loopsWhile
  | conditionalsIf
  | conditionalsTernary
  | blocksTry
  | blocksExpressionStatement
  | callsCall
  | callsNew
  | accessMember
  | accessIdentifier
  | operatorsBinary
  | operatorsUnary
  | operatorsLogical
  | operatorsAssignment
  | operatorsUpdate
  | operatorsSequence
  | literalsNumeric
  | literalsString
  | literalsBoolean
  | literalsArray
  | literalsObject
  | functionsArrow
  | functionsExpression
deriving DecidableEq, Repr

/-- The options object with the node-type toggle at `p` set to `b`. -/
def setNodeToggle (o : Options) (p : NodePath) (b : Bool) : Options :=
  match p with
  | .declarationsVariable =>
    { o with declarations := some { o.declarations.getD {} with «variable» := some b } }
  | .loopsFor => { o with loops := some { o.loops.getD {} with «for» := some b } }
  | .loopsWhile => { o with loops := some { o.loops.getD {} with «while» := some b } }
  | .conditionalsIf =>
    { o with conditionals := some { o.conditionals.getD {} with «if» := some b } }
  | .conditionalsTernary =>
    { o with conditionals := some { o.conditionals.getD {} with ternary := some b } }
  | .blocksTry => { o with blocks := some { o.blocks.getD {} with «try» := some b } }
  | .blocksExpressionStatement =>
    { o with blocks := some { o.blocks.getD {} with expressionStatement := some b } }
  | .callsCall => { o with calls := some { o.calls.getD {} with call := some b } }
  | .callsNew => { o with calls := some { o.calls.getD {} with «new» := some b } }
  | .accessMember => { o with access := some { o.access.getD {} with member := some b } }
  | .accessIdentifier =>
    { o with access := some { o.access.getD {} with identifier := some b } }
  | .operatorsBinary =>
    { o with operators := some { o.operators.getD {} with binary := some b } }
  | .operatorsUnary =>
    { o with operators := some { o.operators.getD {} with unary := some b } }
  | .operatorsLogical =>
    { o with operators := some { o.operators.getD {} with logical := some b } }
  | .operatorsAssignment =>
    { o with operators := some { o.operators.getD {} with assignment := some b } }
  | .operatorsUpdate =>
    { o with operators := some { o.operators.getD {} with update := some b } }
  | .operatorsSequence =>
    { o with operators := some { o.operators.getD {} with sequence := some b } }
  | .literalsNumeric =>
    { o with literals := some { o.literals.getD {} with numeric := some b } }
  | .literalsString =>
    { o with literals := some { o.literals.getD {} with string := some b } }
  | .literalsBoolean =>
    { o with literals := some { o.literals.getD {} with boolean := some b } }
  | .literalsArray =>
    { o with literals := some { o.literals.getD {} with array := some b } }
  | .literalsObject =>
    { o with literals := some { o.literals.getD {} with object := some b } }
  | .functionsArrow =>
    { o with functions := some { o.functions.getD {} with arrow := some b } }
  | .functionsExpression =>
    { o with functions := some { o.functions.getD {} with expression := some b } }

/-- The resolved node config with the toggle at `p` set to `b`. -/
def setResolvedToggle (r : ResolvedNodeConfig) (p : NodePath) (b : Bool) :
    ResolvedNodeConfig :=
  match p with
  | .declarationsVariable => { r with declarations := { «variable» := b } }
  | .loopsFor => { r with loops := { r.loops with «for» := b } }
  | .loopsWhile => { r with loops := { r.loops with «while» := b } }
  | .conditionalsIf => { r with conditionals := { r.conditionals with «if» := b } }
  | .conditionalsTernary => { r with conditionals := { r.conditionals with ternary := b } }
  | .blocksTry => { r with blocks := { r.blocks with «try» := b } }
  | .blocksExpressionStatement =>
    { r with blocks := { r.blocks with expressionStatement := b } }
  | .callsCall => { r with calls := { r.calls with call := b } }
  | .callsNew => { r with calls := { r.calls with «new» := b } }
  | .accessMember => { r with access := { r.access with member := b } }
  | .accessIdentifier => { r with access := { r.access with identifier := b } }
  | .operatorsBinary => { r with operators := { r.operators with binary := b } }
  | .operatorsUnary => { r with operators := { r.operators with unary := b } }
  | .operatorsLogical => { r with operators := { r.operators with logical := b } }
  | .operatorsAssignment => { r with operators := { r.operators with assignment := b } }
  | .operatorsUpdate => { r with operators := { r.operators with update := b } }
  | .operatorsSequence => { r with operators := { r.operators with sequence := b } }
  | .literalsNumeric => { r with literals := { r.literals with numeric := b } }
  | .literalsString => { r with literals := { r.literals with string := b } }
  | .literalsBoolean => { r with literals := { r.literals with boolean := b } }
  | .literalsArray => { r with literals := { r.literals with array := b } }
  | .literalsObject => { r with literals := { r.literals with object := b } }
  | .functionsArrow => { r with functions := { r.functions with arrow := b } }
  | .functionsExpression => { r with functions := { r.functions with expression := b } }

/-! ### Relational vocabulary for the describe/undescribe claims -/

/-- The descriptor `describe` produces for the value `v` under writer
map `map`: primitives inline, objects via their map entry. -/
def valueMatchesDescriptor (map : List (Nat × Nat)) : JSValue → Descriptor → Prop
  | .str s, d => d = Descriptor.primStr s
  | .bool b, d => d = Descriptor.primBool b
  | .num n, d => d = Descriptor.primNum n
  | .null, d => d = Descriptor.primNull
  | .undef, d => d = Descriptor.primUndef
  | .sym _ ds, d => d = Descriptor.primSym (symbolToString ds)
  | .ref b, d => ∃ j, mlookup map b = some j ∧ d = Descriptor.compound j

/-- The store address `a` has been fully described at heap index `i`:
its heap object is the detection shell of `store[a]` whose entries are
key-by-key descriptors of `store[a]`'s entries under the writer map. -/
def GoodAt (store : Store) (heap : List HeapObject) (map : List (Nat × Nat))
    (a i : Nat) : Prop :=
  ∃ obj es, store[a]? = some obj ∧
    heap[i]? = some { heapShell obj with entries := es } ∧
    List.Forall₂
      (fun (se : String × JSValue) (he : String × Descriptor) =>
        he.1 = se.1 ∧ valueMatchesDescriptor map se.2 he.2)
      obj.entries es

/-- An edge of the input object graph: some property of `store[a]` is a
reference to `b`. -/
def StoreEdge (store : Store) (a b : Nat) : Prop :=
  ∃ obj k, store[a]? = some obj ∧ (k, JSValue.ref b) ∈ obj.entries

/-- An edge of the serialized heap graph: some entry of `heap[i]` is a
compound descriptor pointing at `j`. -/
def HeapEdge (heap : List HeapObject) (i j : Nat) : Prop :=
  ∃ ho k, heap[i]? = some ho ∧ (k, Descriptor.compound j) ∈ ho.entries

/-- An edge of the revived output graph: some property of the revived
object at index `i` is a reference to index `j`. -/
def OutEdge (out : List (Option StoreObj)) (i j : Nat) : Prop :=
  ∃ obj k, out[i]? = some (some obj) ∧ (k, JSValue.ref j) ∈ obj.entries

/-- The addresses reachable from a value through the input object
graph. -/
inductive Reaches (store : Store) : JSValue → Nat → Prop where
  | root (a : Nat) : Reaches store (JSValue.ref a) a
  | step {v : JSValue} {a b : Nat} :
      Reaches store v a → StoreEdge store a b → Reaches store v b

/-- The revived array has an object at index `i`. -/
def Populated (r : List (Option StoreObj)) (i : Nat) : Prop :=
  ∃ o, r[i]? = some (some o)

/-- The value `undescribe` produces for a descriptor, relative to the
final revived array: primitives inline (symbols as fresh symbols carrying
the parsed description), compounds as references to their heap index,
which is then populated. -/
def descriptorMatchesOut (r : List (Option StoreObj)) :
    Descriptor → JSValue → Prop
  | .primStr s, v => v = JSValue.str s
  | .primBool b, v => v = JSValue.bool b
  | .primNum n, v => v = JSValue.num n
  | .primNull, v => v = JSValue.null
  | .primUndef, v => v = JSValue.undef
  | .primSym s, v => ∃ uid, v = JSValue.sym uid (parseSymbolDescr s)
  | .compound j, v => v = JSValue.ref j ∧ Populated r j

/-- The heap index `i` has been fully revived: the output object is the
`outShell` of `heap[i]` whose properties are key-by-key undescribed
entries of `heap[i]`. -/
def GoodOut (heap : List HeapObject) (r : List (Option StoreObj)) (i : Nat) : Prop :=
  ∃ ho es, heap[i]? = some ho ∧
    r[i]? = some (some { outShell ho with entries := es }) ∧
    List.Forall₂
      (fun (he : String × Descriptor) (oe : String × JSValue) =>
        oe.1 = he.1 ∧ descriptorMatchesOut r he.2 oe.2)
      ho.entries es

/-- A cycle under an edge relation: a non-empty list of nodes with an
edge between each consecutive pair and from the last back to the
first. -/
def IsCycle (R : Nat → Nat → Prop) : List Nat → Prop
  | [] => False
  | a :: rest => List.Chain R a (rest ++ [a])

/-- The writer map only grows during `describe`. -/
def MapExtends (map map' : List (Nat × Nat)) : Prop :=
  ∀ a i, mlookup map a = some i → mlookup map' a = some i

/-- The heap only grows during `describe`: positions that already
existed are untouched. -/
def HeapPrefix (heap heap' : List HeapObject) : Prop :=
  heap.length ≤ heap'.length ∧ ∀ i, i < heap.length → heap'[i]? = heap[i]?

/-- State-evolution contract of one (possibly nested) `describe` call:
the heap and map only grow, every new map entry points into the new heap
region at a fully described object, and every new heap slot is the
image of some map entry. -/
structure DescribePost (store : Store) (heap : List HeapObject)
    (map : List (Nat × Nat)) (heap' : List HeapObject)
    (map' : List (Nat × Nat)) : Prop where
  hpre : HeapPrefix heap heap'
  mapExt : MapExtends map map'
  newGood : ∀ a i, mlookup map' a = some i →
    mlookup map a = some i ∨
      (heap.length ≤ i ∧ i < heap'.length ∧ GoodAt store heap' map' a i)
  surj : ∀ i, heap.length ≤ i → i < heap'.length → ∃ a, mlookup map' a = some i

/-! ## Theorems -/

/-- C1: `verifyOptions` raises `options-semantic-invalid` exactly on
options whose `filter.names.include` and `filter.names.exclude` are both
non-empty lists; on every other options object it raises nothing. -/
theorem C1_verifyOptions_mutual_exclusion (o : Options) :
    (∃ e, verifyOptions o = Except.error e) ↔
      (nonEmptyList ((o.filter.bind (fun f => f.names)).bind (fun n => n.«include»)) = true ∧
       nonEmptyList ((o.filter.bind (fun f => f.names)).bind (fun n => n.exclude)) = true) := by
  rcases hf : o.filter with _ | f
  · simp [verifyOptions, hf, nonEmptyList]
  · rcases hn : f.names with _ | names
    · simp [verifyOptions, hf, hn, nonEmptyList]
    · by_cases h1 : nonEmptyList names.«include» <;>
        by_cases h2 : nonEmptyList names.exclude <;>
          simp [verifyOptions, hf, hn, h1, h2]

/-- C9: the static tracer identity has id `"js:klve"` and langs
`["js", "mjs", "cjs"]`. -/
theorem C9_tracer_identity :
    tracer.id = "js:klve" ∧ tracer.langs = ["js", "mjs", "cjs"] :=
  ⟨rfl, rfl⟩

/-- C10: `stripData` preserves `step` and `category` unchanged, preserves
`type`, `time` and `detail` exactly (in particular whenever present), and
can only ever remove the five fields `scopes`, `value`, `logs`, `dt`,
`loc` (each is either kept unchanged or dropped), for every data
configuration including the all-disabled one. -/
theorem C10_stripData_frame {U : Type} (step : RawStep U) (dc : ResolvedDataConfig) :
    (stripData step dc).step = step.step ∧
    (stripData step dc).category = step.category ∧
    (stripData step dc).type = step.type ∧
    (stripData step dc).time = step.time ∧
    (stripData step dc).detail = step.detail ∧
    ((stripData step dc).scopes = step.scopes ∨ (stripData step dc).scopes = none) ∧
    ((stripData step dc).value = step.value ∨ (stripData step dc).value = none) ∧
    ((stripData step dc).logs = step.logs ∨ (stripData step dc).logs = none) ∧
    ((stripData step dc).dt = step.dt ∨ (stripData step dc).dt = none) ∧
    ((stripData step dc).loc = step.loc ∨ (stripData step dc).loc = none) := by
  refine ⟨rfl, rfl, rfl, rfl, rfl, ?_, ?_, ?_, ?_, ?_⟩ <;>
    simp only [stripData] <;> split <;> simp

/-- C2: the transformer rewrites `for (I; T; U) B` to
`{ I; while (true) { tmp = T; if (!tmp) break; B; U } }` with
`_reportBefore` marked on `T` and `U`, and replaces an absent `I` by a
`null`-literal expression statement; but, contrary to the claim, it does
not succeed when `T` or `U` is absent: marking `_reportBefore` on the
absent (null) slot throws a `TypeError`, so the transform fails on such
loops (failing input: `for (;;) {}`). -/
theorem C2_forStatement_rewrite_and_absent_slots :
    (∀ (ns : String) (cid : Int) (kind : String) (decls : List (String × Option Expr))
        (test update : Expr) (body : Stmt),
      forStatementEnter ns cid (some (ForInit.decl kind decls)) (some test) (some update)
          body =
        Except.ok (Stmt.block
          [Stmt.varDecl kind decls,
           Stmt.whileStmt (Expr.boolLit true)
             (Stmt.block
               [Stmt.exprStmt
                  (Expr.assign "=" (temporaryVariable ns cid) (Expr.reportBefore test)),
                Stmt.ifStmt (Expr.unary "!" (temporaryVariable ns cid)) Stmt.breakStmt
                  none,
                body,
                Stmt.exprStmt (Expr.reportBefore update)])])) ∧
    (∀ (ns : String) (cid : Int) (ie test update : Expr) (body : Stmt),
      forStatementEnter ns cid (some (ForInit.expr ie)) (some test) (some update) body =
        Except.ok (Stmt.block
          [Stmt.exprStmt ie,
           Stmt.whileStmt (Expr.boolLit true)
             (Stmt.block
               [Stmt.exprStmt
                  (Expr.assign "=" (temporaryVariable ns cid) (Expr.reportBefore test)),
                Stmt.ifStmt (Expr.unary "!" (temporaryVariable ns cid)) Stmt.breakStmt
                  none,
                body,
                Stmt.exprStmt (Expr.reportBefore update)])])) ∧
    (∀ (ns : String) (cid : Int) (test update : Expr) (body : Stmt),
      forStatementEnter ns cid none (some test) (some update) body =
        Except.ok (Stmt.block
          [Stmt.exprStmt Expr.nullLit,
           Stmt.whileStmt (Expr.boolLit true)
             (Stmt.block
               [Stmt.exprStmt
                  (Expr.assign "=" (temporaryVariable ns cid) (Expr.reportBefore test)),
                Stmt.ifStmt (Expr.unary "!" (temporaryVariable ns cid)) Stmt.breakStmt
                  none,
                body,
                Stmt.exprStmt (Expr.reportBefore update)])])) ∧
    (∀ (ns : String) (cid : Int) (body : Stmt),
      forStatementEnter ns cid none none none body =
        Except.error "TypeError: cannot set _reportBefore of null") ∧
    (∀ (ns : String) (cid : Int) (finit : ForInit) (update : Expr) (body : Stmt),
      forStatementEnter ns cid (some finit) none (some update) body =
        Except.error "TypeError: cannot set _reportBefore of null") ∧
    (∀ (ns : String) (cid : Int) (finit : ForInit) (test : Expr) (body : Stmt),
      forStatementEnter ns cid (some finit) (some test) none body =
        Except.error "TypeError: cannot set _reportBefore of null") :=
  ⟨fun _ _ _ _ _ _ _ => rfl, fun _ _ _ _ _ _ => rfl, fun _ _ _ _ _ => rfl,
   fun _ _ _ => rfl, fun _ _ finit _ _ => by cases finit <;> rfl,
   fun _ _ finit _ _ => by cases finit <;> rfl⟩

/-- The candidate-name extraction of filter-steps.ts is exactly the
spec's description of it. -/
theorem extractStepNames_eq_spec {U : Type} (step : RawStep U) :
    extractStepNames step = specCandidateNames step := rfl

/-- C5: the name filter implemented by `fillNameConfig` +
`extractStepNames` + `passesNameFilter` agrees, on every step and every
names configuration, with the spec's description: candidates are the
string-typed `name`/`target`/`callee`/`property` detail fields; mode is
`include` when include is non-empty, else `exclude` when exclude is
non-empty, else `none`; `include` keeps iff some candidate is in the
set, `exclude` keeps iff none is, `none` keeps; nameless steps and init
steps are always kept. -/
theorem C5_name_filter_matches_spec {U : Type} (step : RawStep U)
    (cfg : Option NameConfig) :
    passesNameFilter step (fillNameConfig cfg) = specNameKeep step cfg := by
  rcases cfg with _ | cfg
  · simp only [fillNameConfig, passesNameFilter, specNameKeep, specResolveMode,
      Option.bind_none, nonEmptyList]
    split <;> simp [extractStepNames_eq_spec]
  · by_cases h1 : nonEmptyList cfg.«include» <;> by_cases h2 : nonEmptyList cfg.exclude <;>
      simp only [fillNameConfig, passesNameFilter, specNameKeep, specResolveMode,
        Option.bind_some, h1, h2, if_true, if_false, Bool.false_eq_true,
        extractStepNames_eq_spec] <;>
      split <;>
      simp_all [extractStepNames_eq_spec, specNameKeep, NameMode]

/-! ### Filter monotonicity (C8) -/

/-- Core monotonicity of the two filtering passes: pointwise more
restrictive predicates keep at most as many steps. -/
theorem filter_mono_core {α : Type} (l : List α) (p q p' q' : α → Bool)
    (hp : ∀ a, p' a = true → p a = true) (hq : ∀ a, q' a = true → q a = true) :
    ((l.filter p').filter q').length ≤ ((l.filter p).filter q).length := by
  have h1 : List.Sublist (l.filter p') (l.filter p) := List.monotone_filter_right l hp
  have h2 : List.Sublist ((l.filter p').filter q') ((l.filter p').filter q) :=
    List.monotone_filter_right _ hq
  have h3 : List.Sublist ((l.filter p').filter q) ((l.filter p).filter q) :=
    List.Sublist.filter q h1
  exact (h2.trans h3).length_le

/-- The length of a filtered step list is the length after the two
keep/drop passes (stripping only maps). -/
theorem filterSteps_length {U : Type} (steps : List (RawStep U)) (o : Options) :
    (filterSteps steps o).length =
      ((steps.filter (fun s => passesNodeAndTimingFilters (fillConfig o) s)).filter
          (fun s => passesNameFilter s (fillConfig o).names)).length := by
  simp [filterSteps]

/-- Pointwise monotonicity transfers to `filterSteps` lengths. -/
theorem filterSteps_mono {U : Type} (steps : List (RawStep U)) (o1 o2 : Options)
    (hA : ∀ s : RawStep U,
      passesNodeAndTimingFilters (fillConfig o2) s = true →
        passesNodeAndTimingFilters (fillConfig o1) s = true)
    (hB : ∀ s : RawStep U,
      passesNameFilter s (fillConfig o2).names = true →
        passesNameFilter s (fillConfig o1).names = true) :
    (filterSteps steps o2).length ≤ (filterSteps steps o1).length := by
  rw [filterSteps_length, filterSteps_length]
  exact filter_mono_core steps _ _ _ _ hA hB

/-- Node/timing monotonicity at the resolved level: if every timing
phase disabled by `F1` is disabled by `F2` and every node type dropped by
`F1` is dropped by `F2`, then every step passing `F2` passes `F1`. -/
theorem passesNT_mono {U : Type} (F1 F2 : ResolvedFilterConfig)
    (htime : ∀ t, timingEnabled F1.timing t = false → timingEnabled F2.timing t = false)
    (hnode : ∀ ty, buildNodeLookup F1.nodes ty = some false →
      buildNodeLookup F2.nodes ty = some false)
    (s : RawStep U) (h : passesNodeAndTimingFilters F2 s = true) :
    passesNodeAndTimingFilters F1 s = true := by
  by_cases hc : s.category = Category.init
  · simp [passesNodeAndTimingFilters, hc]
  · rcases ht : s.time with _ | t <;> rcases hty : s.type with _ | ty
    · simp [passesNodeAndTimingFilters, hc, ht, hty]
    · simp only [passesNodeAndTimingFilters, hc, ht, hty, beq_iff_eq] at h ⊢
      by_cases hl : buildNodeLookup F1.nodes ty = some false
      · simp [hnode ty hl] at h
      · simp [hc, hl]
    · simp only [passesNodeAndTimingFilters, hc, ht, hty] at h ⊢
      by_cases h1 : timingEnabled F1.timing t
      · simp [h1]
      · have h2 : timingEnabled F2.timing t = false :=
          htime t (Bool.not_eq_true _ ▸ h1)
        simp [h2] at h
    · simp only [passesNodeAndTimingFilters, hc, ht, hty, beq_iff_eq] at h ⊢
      by_cases h1 : timingEnabled F1.timing t
      · by_cases hl : buildNodeLookup F1.nodes ty = some false
        · rcases hx : timingEnabled F2.timing t with _ | _
          · simp [hx] at h
          · simp [hx, hnode ty hl] at h
        · simp [h1, hl]
      · have h2 : timingEnabled F2.timing t = false :=
          htime t (Bool.not_eq_true _ ▸ h1)
        simp [h2] at h

/-- A step passing a name filter in `exclude` mode over a superset list
passes the filter over the smaller list. -/
theorem passesName_exclude_subset {U : Type} (l1 l2 : List String)
    (hsub : ∀ x, l1.contains x = true → l2.contains x = true) (s : RawStep U)
    (h : passesNameFilter s { mode := NameMode.exclude, names := l2 } = true) :
    passesNameFilter s { mode := NameMode.exclude, names := l1 } = true := by
  by_cases hc : s.category = Category.init
  · simp [passesNameFilter, hc]
  · by_cases he : (extractStepNames s).isEmpty
    · simp [passesNameFilter, hc, he]
    · simp only [passesNameFilter, hc, he, Bool.false_eq_true, if_false,
        if_neg (by simp : ¬(NameMode.exclude = NameMode.none)),
        if_neg (by simp : ¬(NameMode.exclude = NameMode.«include»))] at h ⊢
      rcases hx : (extractStepNames s).any (fun n => l1.contains n) with _ | _
      · simp
      · exfalso
        obtain ⟨x, hmem, hcont⟩ := List.any_eq_true.mp hx
        have h2 : (extractStepNames s).any (fun n => l2.contains n) = true :=
          List.any_eq_true.mpr ⟨x, hmem, hsub x hcont⟩
        rw [h2] at h
        exact absurd h (by simp)

/-- A step passing a name filter in `include` mode over a subset list
passes the filter over the larger list. -/
theorem passesName_include_subset {U : Type} (l1 l2 : List String)
    (hsub : ∀ x, l2.contains x = true → l1.contains x = true) (s : RawStep U)
    (h : passesNameFilter s { mode := NameMode.«include», names := l2 } = true) :
    passesNameFilter s { mode := NameMode.«include», names := l1 } = true := by
  by_cases hc : s.category = Category.init
  · simp [passesNameFilter, hc]
  · by_cases he : (extractStepNames s).isEmpty
    · simp [passesNameFilter, hc, he]
    · simp only [passesNameFilter, hc, he, Bool.false_eq_true, if_false,
        if_neg (by simp : ¬(NameMode.«include» = NameMode.none)), if_pos rfl] at h ⊢
      obtain ⟨x, hmem, hcont⟩ := List.any_eq_true.mp h
      exact List.any_eq_true.mpr ⟨x, hmem, hsub x hcont⟩

/-- Name filters in mode `none` keep every step. -/
theorem passesName_none {U : Type} (l : List String) (s : RawStep U) :
    passesNameFilter s { mode := NameMode.none, names := l } = true := by
  simp [passesNameFilter]

/-- `fillNodes` ignores the `filter` part of the options. -/
theorem fillNodes_filter_update (o : Options) (f : Option FilterConfig) :
    fillNodes { o with filter := f } = fillNodes o := rfl

/-- The timing/names/data parts of `fillConfig` depend only on
`options.filter`. -/
theorem fillConfig_congr_filter (o1 o2 : Options) (h : o2.filter = o1.filter) :
    (fillConfig o2).names = (fillConfig o1).names ∧
    (fillConfig o2).timing = (fillConfig o1).timing ∧
    (fillConfig o2).data = (fillConfig o1).data := by
  refine ⟨?_, ?_, ?_⟩ <;> simp [fillConfig, h]

/-- `setNodeToggle` leaves the `filter` options untouched. -/
theorem setNodeToggle_filter (o : Options) (p : NodePath) (b : Bool) :
    (setNodeToggle o p b).filter = o.filter := by
  cases p <;> rfl

/-- `setNodeToggle` commutes with node-config resolution. -/
theorem fillNodes_setNodeToggle (o : Options) (p : NodePath) (b : Bool) :
    fillNodes (setNodeToggle o p b) = setResolvedToggle (fillNodes o) p b := by
  cases p with
  | declarationsVariable =>
    rcases h : o.declarations with _ | g <;>
      simp [setNodeToggle, fillNodes, setResolvedToggle, h]
  | loopsFor =>
    rcases h : o.loops with _ | g <;>
      simp [setNodeToggle, fillNodes, setResolvedToggle, h]
  | loopsWhile =>
    rcases h : o.loops with _ | g <;>
      simp [setNodeToggle, fillNodes, setResolvedToggle, h]
  | conditionalsIf =>
    rcases h : o.conditionals with _ | g <;>
      simp [setNodeToggle, fillNodes, setResolvedToggle, h]
  | conditionalsTernary =>
    rcases h : o.conditionals with _ | g <;>
      simp [setNodeToggle, fillNodes, setResolvedToggle, h]
  | blocksTry =>
    rcases h : o.blocks with _ | g <;>
      simp [setNodeToggle, fillNodes, setResolvedToggle, h]
  | blocksExpressionStatement =>
    rcases h : o.blocks with _ | g <;>
      simp [setNodeToggle, fillNodes, setResolvedToggle, h]
  | callsCall =>
    rcases h : o.calls with _ | g <;>
      simp [setNodeToggle, fillNodes, setResolvedToggle, h]
  | callsNew =>
    rcases h : o.calls with _ | g <;>
      simp [setNodeToggle, fillNodes, setResolvedToggle, h]
  | accessMember =>
    rcases h : o.access with _ | g <;>
      simp [setNodeToggle, fillNodes, setResolvedToggle, h]
  | accessIdentifier =>
    rcases h : o.access with _ | g <;>
      simp [setNodeToggle, fillNodes, setResolvedToggle, h]
  | operatorsBinary =>
    rcases h : o.operators with _ | g <;>
      simp [setNodeToggle, fillNodes, setResolvedToggle, h]
  | operatorsUnary =>
    rcases h : o.operators with _ | g <;>
      simp [setNodeToggle, fillNodes, setResolvedToggle, h]
  | operatorsLogical =>
    rcases h : o.operators with _ | g <;>
      simp [setNodeToggle, fillNodes, setResolvedToggle, h]
  | operatorsAssignment =>
    rcases h : o.operators with _ | g <;>
      simp [setNodeToggle, fillNodes, setResolvedToggle, h]
  | operatorsUpdate =>
    rcases h : o.operators with _ | g <;>
      simp [setNodeToggle, fillNodes, setResolvedToggle, h]
  | operatorsSequence =>
    rcases h : o.operators with _ | g <;>
      simp [setNodeToggle, fillNodes, setResolvedToggle, h]
  | literalsNumeric =>
    rcases h : o.literals with _ | g <;>
      simp [setNodeToggle, fillNodes, setResolvedToggle, h]
  | literalsString =>
    rcases h : o.literals with _ | g <;>
      simp [setNodeToggle, fillNodes, setResolvedToggle, h]
  | literalsBoolean =>
    rcases h : o.literals with _ | g <;>
      simp [setNodeToggle, fillNodes, setResolvedToggle, h]
  | literalsArray =>
    rcases h : o.literals with _ | g <;>
      simp [setNodeToggle, fillNodes, setResolvedToggle, h]
  | literalsObject =>
    rcases h : o.literals with _ | g <;>
      simp [setNodeToggle, fillNodes, setResolvedToggle, h]
  | functionsArrow =>
    rcases h : o.functions with _ | g <;>
      simp [setNodeToggle, fillNodes, setResolvedToggle, h]
  | functionsExpression =>
    rcases h : o.functions with _ | g <;>
      simp [setNodeToggle, fillNodes, setResolvedToggle, h]

/-- Entry-wise comparison of the two `flatConfig` lists after one toggle
is forced to `false`: keys agree and each value is either `false` or
unchanged. -/
theorem flatConfig_setResolvedToggle (r : ResolvedNodeConfig) (p : NodePath) :
    List.Forall₂
      (fun (a b : String × Bool) => b.1 = a.1 ∧ (b.2 = false ∨ b.2 = a.2))
      (flatConfig r) (flatConfig (setResolvedToggle r p false)) := by
  cases p <;> simp [flatConfig, setResolvedToggle, List.forall₂_cons]

/-- Looking a key up in entry-wise `false`-or-unchanged lists gives a
`false`-or-unchanged result. -/
theorem flatFind_mono (l l' : List (String × Bool))
    (hrel : List.Forall₂
      (fun (a b : String × Bool) => b.1 = a.1 ∧ (b.2 = false ∨ b.2 = a.2)) l l')
    (pth : String) :
    (((l'.find? (fun q => q.1 == pth)).map (fun q => q.2)).getD true = false) ∨
    (((l'.find? (fun q => q.1 == pth)).map (fun q => q.2)).getD true =
      ((l.find? (fun q => q.1 == pth)).map (fun q => q.2)).getD true) := by
  induction hrel with
  | nil => exact Or.inr rfl
  | cons hab hrest ih =>
    rename_i a b l₁ l₂
    obtain ⟨hk, hv⟩ := hab
    by_cases hp : a.1 = pth
    · have hb : (b.1 == pth) = true := by simp [hk, hp]
      have ha : (a.1 == pth) = true := by simp [hp]
      simp only [List.find?_cons, hb, ha, cond_true, Option.map_some, Option.getD_some]
      rcases hv with hv | hv
      · exact Or.inl hv
      · exact Or.inr hv
    · have hb : (b.1 == pth) = false := by simp [hk, hp]
      have ha : (a.1 == pth) = false := by simp [hp]
      simp only [List.find?_cons, hb, ha, cond_false]
      exact ih

/-- Forcing one node toggle to `false` only ever turns lookup results to
`some false`. -/
theorem buildNodeLookup_setResolvedToggle (r : ResolvedNodeConfig) (p : NodePath)
    (ty : String) (h : buildNodeLookup r ty = some false) :
    buildNodeLookup (setResolvedToggle r p false) ty = some false := by
  unfold buildNodeLookup at h ⊢
  cases hfind : AST_TO_CONFIG.find? (fun e => e.1 == ty) with
  | none => simp [hfind] at h
  | some e =>
    simp only [hfind, Option.map_some', Option.some.injEq] at h ⊢
    rcases flatFind_mono (flatConfig r) (flatConfig (setResolvedToggle r p false))
        (flatConfig_setResolvedToggle r p) e.2 with h2 | h2
    · exact h2
    · rw [h2, h]

/-- Resolved components of `withTimingBefore`: only `timing.before`
changes. -/
theorem fillConfig_withTimingBefore (o : Options) (b : Bool) :
    (fillConfig (withTimingBefore o b)).names = (fillConfig o).names ∧
    (fillConfig (withTimingBefore o b)).nodes = (fillConfig o).nodes ∧
    (fillConfig (withTimingBefore o b)).timing.before = b ∧
    (fillConfig (withTimingBefore o b)).timing.after = (fillConfig o).timing.after := by
  rcases o with ⟨d, l, c, bl, ca, ac, op, li, fn, fi⟩
  rcases fi with _ | f
  · exact ⟨rfl, rfl, rfl, rfl⟩
  · rcases f with ⟨nm, tm, da⟩
    rcases tm with _ | t <;> exact ⟨rfl, rfl, rfl, rfl⟩

/-- Resolved components of `withTimingAfter`: only `timing.after`
changes. -/
theorem fillConfig_withTimingAfter (o : Options) (b : Bool) :
    (fillConfig (withTimingAfter o b)).names = (fillConfig o).names ∧
    (fillConfig (withTimingAfter o b)).nodes = (fillConfig o).nodes ∧
    (fillConfig (withTimingAfter o b)).timing.after = b ∧
    (fillConfig (withTimingAfter o b)).timing.before = (fillConfig o).timing.before := by
  rcases o with ⟨d, l, c, bl, ca, ac, op, li, fn, fi⟩
  rcases fi with _ | f
  · exact ⟨rfl, rfl, rfl, rfl⟩
  · rcases f with ⟨nm, tm, da⟩
    rcases tm with _ | t <;> exact ⟨rfl, rfl, rfl, rfl⟩

/-- Resolved components of `withExcludeNames`: only `names` changes, to
the resolution of the updated name config. -/
theorem fillConfig_withExcludeNames (o : Options) (l : List String) :
    (fillConfig (withExcludeNames o l)).names =
      fillNameConfig
        (some { (o.filter.bind (fun f => f.names)).getD {} with exclude := some l }) ∧
    (fillConfig (withExcludeNames o l)).nodes = (fillConfig o).nodes ∧
    (fillConfig (withExcludeNames o l)).timing = (fillConfig o).timing := by
  rcases o with ⟨d, lo, c, bl, ca, ac, op, li, fn, fi⟩
  rcases fi with _ | f
  · exact ⟨rfl, rfl, rfl⟩
  · rcases f with ⟨nm, tm, da⟩
    rcases nm with _ | n <;> exact ⟨rfl, rfl, rfl⟩

/-- Resolved components of `withIncludeNames`: only `names` changes, to
the resolution of the updated name config. -/
theorem fillConfig_withIncludeNames (o : Options) (l : List String) :
    (fillConfig (withIncludeNames o l)).names =
      fillNameConfig
        (some { (o.filter.bind (fun f => f.names)).getD {} with «include» := some l }) ∧
    (fillConfig (withIncludeNames o l)).nodes = (fillConfig o).nodes ∧
    (fillConfig (withIncludeNames o l)).timing = (fillConfig o).timing := by
  rcases o with ⟨d, lo, c, bl, ca, ac, op, li, fn, fi⟩
  rcases fi with _ | f
  · exact ⟨rfl, rfl, rfl⟩
  · rcases f with ⟨nm, tm, da⟩
    rcases nm with _ | n <;> exact ⟨rfl, rfl, rfl⟩

/-- C8 (amended): filtering is monotone for every restriction except
emptying the include list — disabling a timing phase, forcing a node
toggle to `false`, adding a name to the exclude list, and removing a
name from the include list *provided it stays non-empty* never increase
the kept step count.  (Removing the last include name flips the filter
into `none` mode, which can increase the count — see the
counterexample.) -/
theorem C8_filter_monotonicity_amended {U : Type} (steps : List (RawStep U))
    (o : Options) :
    ((filterSteps steps (withTimingBefore o false)).length ≤
      (filterSteps steps o).length) ∧
    ((filterSteps steps (withTimingAfter o false)).length ≤
      (filterSteps steps o).length) ∧
    (∀ p : NodePath,
      (filterSteps steps (setNodeToggle o p false)).length ≤
        (filterSteps steps o).length) ∧
    (∀ x : String,
      (filterSteps steps (withExcludeNames o (x :: excludeListOf o))).length ≤
        (filterSteps steps o).length) ∧
    (∀ x : String, (includeListOf o).erase x ≠ [] →
      (filterSteps steps (withIncludeNames o ((includeListOf o).erase x))).length ≤
        (filterSteps steps o).length) := by
  have ho1names : (fillConfig o).names = fillNameConfig (o.filter.bind (fun f => f.names)) :=
    rfl
  refine ⟨?_, ?_, ?_, ?_, ?_⟩
  · -- disable timing.before
    obtain ⟨hN, hC, hB, hA⟩ := fillConfig_withTimingBefore o false
    refine filterSteps_mono steps o _ ?_ ?_
    · intro s hs
      refine passesNT_mono (fillConfig o) _ ?_ ?_ s hs
      · intro t h1
        cases t
        · simp [timingEnabled, hB]
        · simpa [timingEnabled, hA] using h1
      · intro ty h1
        rw [hC]
        exact h1
    · intro s hs
      rw [hN] at hs
      exact hs
  · -- disable timing.after
    obtain ⟨hN, hC, hB, hA⟩ := fillConfig_withTimingAfter o false
    refine filterSteps_mono steps o _ ?_ ?_
    · intro s hs
      refine passesNT_mono (fillConfig o) _ ?_ ?_ s hs
      · intro t h1
        cases t
        · simpa [timingEnabled, hA] using h1
        · simp [timingEnabled, hB]
      · intro ty h1
        rw [hC]
        exact h1
    · intro s hs
      rw [hN] at hs
      exact hs
  · -- force one node toggle off
    intro p
    obtain ⟨hN, hT, hD⟩ := fillConfig_congr_filter o (setNodeToggle o p false)
      (setNodeToggle_filter o p false)
    refine filterSteps_mono steps o _ ?_ ?_
    · intro s hs
      refine passesNT_mono (fillConfig o) _ ?_ ?_ s hs
      · intro t h1
        rw [hT]
        exact h1
      · intro ty h1
        rw [show (fillConfig (setNodeToggle o p false)).nodes =
            setResolvedToggle (fillNodes o) p false from fillNodes_setNodeToggle o p false]
        exact buildNodeLookup_setResolvedToggle (fillNodes o) p ty h1
    · intro s hs
      rw [hN] at hs
      exact hs
  · -- add a name to the exclude list
    intro x
    obtain ⟨hN, hC, hT⟩ := fillConfig_withExcludeNames o (x :: excludeListOf o)
    refine filterSteps_mono steps o _ ?_ ?_
    · intro s hs
      refine passesNT_mono (fillConfig o) _ ?_ ?_ s hs
      · intro t h1
        rw [hT]
        exact h1
      · intro ty h1
        rw [hC]
        exact h1
    · intro s hs
      rw [hN] at hs
      rw [ho1names]
      rcases hm : o.filter.bind (fun f => f.names) with _ | cfg
      · simp [fillNameConfig, passesName_none]
      · rw [hm] at hs
        simp only [Option.getD_some] at hs
        by_cases hI : nonEmptyList cfg.«include»
        · have heq : fillNameConfig
              (some { cfg with exclude := some (x :: excludeListOf o) }) =
              fillNameConfig (some cfg) := by
            simp only [fillNameConfig, hI, if_true]
          rw [heq] at hs
          exact hs
        · have hI' : nonEmptyList cfg.«include» = false :=
            Bool.eq_false_iff.mpr hI
          by_cases hE : nonEmptyList cfg.exclude
          · have hxl : excludeListOf o = cfg.exclude.getD [] := by
              simp [excludeListOf, hm]
            have hne2 : nonEmptyList (some (x :: excludeListOf o)) = true := by
              simp [nonEmptyList]
            have h2 : fillNameConfig
                (some { cfg with exclude := some (x :: excludeListOf o) }) =
                { mode := NameMode.exclude, names := x :: excludeListOf o } := by
              simp only [fillNameConfig, hI', Bool.false_eq_true, if_false, hne2,
                if_true, Option.getD_some]
            have h1 : fillNameConfig (some cfg) =
                { mode := NameMode.exclude, names := cfg.exclude.getD [] } := by
              simp only [fillNameConfig, hI', Bool.false_eq_true, if_false, hE,
                if_true]
            rw [h2] at hs
            rw [h1]
            refine passesName_exclude_subset _ _ ?_ s hs
            intro y hy
            rw [hxl]
            simp only [List.contains_cons, Bool.or_eq_true]
            exact Or.inr hy
          · have hE' : nonEmptyList cfg.exclude = false :=
              Bool.eq_false_iff.mpr hE
            have h1 : fillNameConfig (some cfg) =
                { mode := NameMode.none, names := [] } := by
              simp only [fillNameConfig, hI', hE', Bool.false_eq_true, if_false]
            rw [h1]
            exact passesName_none _ s
  · -- remove a name from a still non-empty include list
    intro x hne
    obtain ⟨hN, hC, hT⟩ := fillConfig_withIncludeNames o ((includeListOf o).erase x)
    refine filterSteps_mono steps o _ ?_ ?_
    · intro s hs
      refine passesNT_mono (fillConfig o) _ ?_ ?_ s hs
      · intro t h1
        rw [hT]
        exact h1
      · intro ty h1
        rw [hC]
        exact h1
    · intro s hs
      rw [hN] at hs
      rw [ho1names]
      rcases hm : o.filter.bind (fun f => f.names) with _ | cfg
      · exact absurd (by simp [includeListOf, hm]) hne
      · rw [hm] at hs
        simp only [Option.getD_some] at hs
        have hil : includeListOf o = cfg.«include».getD [] := by
          simp [includeListOf, hm]
        rcases hci : cfg.«include» with _ | il
        · rw [hil, hci] at hne
          simp at hne
        · have hilx : includeListOf o = il := by rw [hil, hci]; rfl
          have hI : nonEmptyList cfg.«include» = true := by
            rcases il with _ | ⟨y, ys⟩
            · rw [hilx] at hne
              simp at hne
            · simp [nonEmptyList, hci]
          have h2 : fillNameConfig
              (some { cfg with «include» := some ((includeListOf o).erase x) }) =
              { mode := NameMode.«include», names := (includeListOf o).erase x } := by
            have hne3 : nonEmptyList (some ((includeListOf o).erase x)) = true := by
              rcases hee : (includeListOf o).erase x with _ | _
              · exact absurd hee hne
              · simp [nonEmptyList]
            simp only [fillNameConfig, hne3, if_true, Option.getD_some]
          have h1 : fillNameConfig (some cfg) =
              { mode := NameMode.«include», names := il } := by
            have hIil : nonEmptyList (some il) = true := hci ▸ hI
            simp only [fillNameConfig, hci, hIil, if_true, Option.getD_some]
          rw [h2] at hs
          rw [h1]
          refine passesName_include_subset _ _ ?_ s hs
          intro y hy
          rw [hilx] at hy
          have hmem : y ∈ il.erase x := List.elem_iff.mp hy
          exact List.elem_iff.mpr (List.mem_of_mem_erase hmem)

/-- C8 counterexample: removing the name `"x"` from the include list
`["x"]` (a restriction on the name axis in the claim's sense) leaves the
include list empty, which resolves to mode `none` and keeps *more*
steps: the count rises from 1 to 2, refuting monotonicity as claimed. -/
theorem C8_monotonicity_counterexample :
    withIncludeNames
        { filter := some { names := some { «include» := some ["x"] } } }
        (List.erase ["x"] "x") =
      ({ filter := some { names := some { «include» := some ([] : List String) } } } :
        Options) ∧
    (filterSteps
        [initStep Unit,
         { step := 1, category := Category.expression, type := some "Identifier",
           time := some Timing.after, detail := some { name := some (some "y") } }]
        { filter := some { names := some { «include» := some ["x"] } } }).length = 1 ∧
    (filterSteps
        [initStep Unit,
         { step := 1, category := Category.expression, type := some "Identifier",
           time := some Timing.after, detail := some { name := some (some "y") } }]
        (withIncludeNames
          { filter := some { names := some { «include» := some ["x"] } } }
          (List.erase ["x"] "x"))).length = 2 ∧
    ¬((filterSteps
        [initStep Unit,
         { step := 1, category := Category.expression, type := some "Identifier",
           time := some Timing.after, detail := some { name := some (some "y") } }]
        (withIncludeNames
          { filter := some { names := some { «include» := some ["x"] } } }
          (List.erase ["x"] "x"))).length ≤
      (filterSteps
        [initStep Unit,
         { step := 1, category := Category.expression, type := some "Identifier",
           time := some Timing.after, detail := some { name := some (some "y") } }]
        { filter := some { names := some { «include» := some ["x"] } } }).length) := by
  refine ⟨rfl, ?_, ?_, ?_⟩ <;> decide

/-- Witness for the amended C8: a run of the include-removal conjunct on
a concrete list and options, with the non-emptiness hypothesis
discharged. -/
theorem C8_filter_monotonicity_amended_witness :
    (filterSteps [initStep Unit]
        (withIncludeNames
          { filter := some { names := some { «include» := some ["x", "y"] } } }
          ((includeListOf
            { filter := some { names := some { «include» := some ["x", "y"] } } }).erase
            "x"))).length ≤
      (filterSteps [initStep Unit]
        { filter := some { names := some { «include» := some ["x", "y"] } } }).length :=
  (C8_filter_monotonicity_amended [initStep Unit]
    { filter := some { names := some { «include» := some ["x", "y"] } } }).2.2.2.2 "x"
    (by decide)

/-! ### Reporter lemmas (C3, C4) -/

/-- A successful `report` call appends exactly one step, carrying the
meta payload with `step` set to the pre-push length. -/
theorem report_ok_eq {U : Type} {limits : Limits} {dtv : Nat}
    {steps : List (RawStep U)} {m : Meta U} {value : U} {logs : List (List U)}
    {steps' : List (RawStep U)}
    (h : report limits dtv steps m value logs = Except.ok steps') :
    steps' = steps ++ [metaToStep m dtv (Int.ofNat steps.length) value logs] := by
  unfold report at h
  split at h
  · simp at h
  · split at h
    · simp at h
    · simpa using h.symm

/-- A successful `report` call under a step limit means the list was
still strictly below the limit. -/
theorem report_ok_steps_lt {U : Type} {limits : Limits} {K : Nat}
    (hK : limits.maxSteps = some K) {dtv : Nat} {steps : List (RawStep U)}
    {m : Meta U} {value : U} {logs : List (List U)} {steps' : List (RawStep U)}
    (h : report limits dtv steps m value logs = Except.ok steps') :
    steps.length < K := by
  unfold report at h
  split at h
  · simp at h
  · split at h
    · simp at h
    · rename_i g2
      rw [hK] at g2
      simp at g2
      omega

/-- Every reachable `_steps` list is the init seed followed by non-init
steps. -/
theorem reach_shape {U : Type} {limits : Limits} {raw : List (RawStep U)}
    (h : ReporterReachable limits raw) :
    ∃ rest, raw = initStep U :: rest ∧ ∀ s ∈ rest, s.category ≠ Category.init := by
  induction h with
  | seed => exact ⟨[], rfl, by simp⟩
  | step hr hok ih =>
    obtain ⟨rest, heq, hcat⟩ := ih
    rename_i steps m dtv value logs steps'
    refine ⟨rest ++ [metaToStep m dtv (Int.ofNat steps.length) value logs], ?_, ?_⟩
    · rw [report_ok_eq hok, heq]
      simp
    · intro s hs
      rcases List.mem_append.mp hs with h1 | h1
      · exact hcat s h1
      · simp only [List.mem_singleton] at h1
        subst h1
        simp only [metaToStep]
        split <;> simp

/-- Under a step limit `K`, every reachable `_steps` list has at most
`max 1 K` entries (the seed alone can exceed `K` when `K = 0`). -/
theorem reach_length_le {U : Type} {limits : Limits} {K : Nat}
    (hK : limits.maxSteps = some K) {raw : List (RawStep U)}
    (h : ReporterReachable limits raw) : raw.length ≤ max 1 K := by
  induction h with
  | seed => simp
  | step hr hok ih =>
    have hlt := report_ok_steps_lt hK hok
    rw [report_ok_eq hok]
    simp only [List.length_append, List.length_singleton]
    omega

/-- `renumberFrom` preserves length. -/
theorem renumberFrom_length {U : Type} (n : Int) (l : List (JsKlveStep U)) :
    (renumberFrom n l).length = l.length := by
  induction l generalizing n with
  | nil => rfl
  | cons s t ih => simp [renumberFrom, ih]

/-- Element-wise characterization of `renumberFrom`. -/
theorem renumberFrom_get {U : Type} (n : Int) (l : List (JsKlveStep U)) (i : Nat)
    (h : i < (renumberFrom n l).length) :
    (renumberFrom n l).get ⟨i, h⟩ =
      { l.get ⟨i, by rwa [renumberFrom_length] at h⟩ with step := n + i } := by
  induction l generalizing n i with
  | nil => simp [renumberFrom] at h
  | cons s t ih =>
    cases i with
    | zero => simp [renumberFrom]
    | succ j =>
      have h' : j < (renumberFrom (n + 1) t).length := by
        simpa [renumberFrom] using h
      have hrec := ih (n + 1) j h'
      simp only [renumberFrom, List.get_cons_succ]
      rw [hrec]
      have harith : n + 1 + (j : Int) = n + ((j + 1 : Nat) : Int) := by
        push_cast
        ring
      rw [harith]

/-- `renumberFrom` does not change step categories, so category counts
are stable. -/
theorem renumberFrom_countP_init {U : Type} (n : Int) (l : List (JsKlveStep U)) :
    (renumberFrom n l).countP (fun s => decide (s.category = Category.init)) =
      l.countP (fun s => decide (s.category = Category.init)) := by
  induction l generalizing n with
  | nil => rfl
  | cons s t ih => simp [renumberFrom, List.countP_cons, ih]

/-- Name filters never drop init steps. -/
theorem passesNameFilter_init {U : Type} (s : RawStep U) (nc : ResolvedNameConfig)
    (h : s.category = Category.init) : passesNameFilter s nc = true := by
  unfold passesNameFilter
  by_cases h0 : nc.mode = NameMode.none
  · simp [h0]
  · simp [h0, h]

/-- Filtering a raw list that starts with the init seed keeps the init
step in front. -/
theorem filterSteps_cons_init {U : Type} (rest : List (RawStep U)) (o : Options) :
    filterSteps (initStep U :: rest) o =
      stripData (initStep U) (fillConfig o).data :: filterSteps rest o := by
  have hp1 : passesNodeAndTimingFilters (fillConfig o) (initStep U) = true := by
    simp [passesNodeAndTimingFilters, initStep]
  have hp2 : passesNameFilter (initStep U) (fillConfig o).names = true :=
    passesNameFilter_init _ _ rfl
  simp only [filterSteps, List.filter_cons, hp1, hp2, if_true, List.map_cons]

/-- Every step surviving `filterSteps` has the category of some raw
step. -/
theorem mem_filterSteps_category {U : Type} {s : JsKlveStep U}
    {steps : List (RawStep U)} {o : Options} (h : s ∈ filterSteps steps o) :
    ∃ s', s' ∈ steps ∧ s.category = s'.category := by
  simp only [filterSteps, List.mem_map, List.mem_filter] at h
  obtain ⟨s', ⟨⟨hmem, _⟩, _⟩, rfl⟩ := h
  exact ⟨s', hmem, rfl⟩

/-- C3: for every raw step list an instrumented execution can produce
and every options object, the output of `record`'s post-processing
starts with exactly one `init` step numbered 1, and the step numbers are
exactly the consecutive sequence `1..N`. -/
theorem C3_init_first_and_consecutive_numbering {U : Type} (limits : Limits)
    (raw : List (RawStep U)) (o : Options) (h : ReporterReachable limits raw) :
    (∃ s0, (recordSteps raw o).head? = some s0 ∧ s0.category = Category.init ∧
      s0.step = 1) ∧
    (recordSteps raw o).countP (fun s => decide (s.category = Category.init)) = 1 ∧
    (∀ (i : Nat) (hi : i < (recordSteps raw o).length),
      ((recordSteps raw o).get ⟨i, hi⟩).step = (i : Int) + 1) := by
  obtain ⟨rest, rfl, hcat⟩ := reach_shape h
  have hcons := filterSteps_cons_init rest o
  refine ⟨?_, ?_, ?_⟩
  · unfold recordSteps
    rw [hcons]
    exact ⟨_, rfl, rfl, rfl⟩
  · unfold recordSteps
    rw [hcons]
    simp only [renumberFrom, List.countP_cons]
    rw [renumberFrom_countP_init]
    have hzero : (filterSteps rest o).countP
        (fun s => decide (s.category = Category.init)) = 0 := by
      rw [List.countP_eq_zero]
      intro s hs
      obtain ⟨s', hmem, hceq⟩ := mem_filterSteps_category hs
      simp [hceq, hcat s' hmem]
    rw [hzero]
    simp [stripData, initStep]
  · intro i hi
    unfold recordSteps at hi ⊢
    rw [renumberFrom_get 1 _ i hi]
    simp
    omega

/-- Witness for C3 at the seed trace (only the init step) and empty
options. -/
theorem C3_init_first_witness :
    (∃ s0, (recordSteps [initStep Unit] {}).head? = some s0 ∧
      s0.category = Category.init ∧ s0.step = 1) ∧
    (recordSteps [initStep Unit] {}).countP
      (fun s => decide (s.category = Category.init)) = 1 ∧
    (∀ (i : Nat) (hi : i < (recordSteps [initStep Unit] ({} : Options)).length),
      ((recordSteps [initStep Unit] ({} : Options)).get ⟨i, hi⟩).step = (i : Int) + 1) :=
  C3_init_first_and_consecutive_numbering {} [initStep Unit] {}
    ReporterReachable.seed

/-- C4 (amended): with `maxSteps = K` set, a `report` call raises
`limit-exceeded` of kind `steps` carrying `_steps.length + 1` exactly
when the step list already holds at least `K` entries *and the time
limit check does not fire first* (`maxTime` unset or `dt` within it);
and every trace that completes without raising yields an output of
length at most `K + 1`. -/
theorem C4_step_limit_amended (U : Type) :
    (∀ (limits : Limits) (K : Nat) (dtv : Nat) (steps : List (RawStep U)) (m : Meta U)
        (value : U) (logs : List (List U)),
      limits.maxSteps = some K →
      (limits.maxTime = none ∨ ∃ t, limits.maxTime = some t ∧ dtv ≤ t) →
      ((report limits dtv steps m value logs =
          Except.error { kind := "steps", observed := steps.length + 1 }) ↔
        K ≤ steps.length)) ∧
    (∀ (limits : Limits) (K : Nat) (raw : List (RawStep U)) (o : Options),
      limits.maxSteps = some K → ReporterReachable limits raw →
      (recordSteps raw o).length ≤ K + 1) := by
  constructor
  · intro limits K dtv steps m value logs hK hT
    have hTfalse : (match limits.maxTime with
        | some t => decide (dtv > t)
        | none => false) = false := by
      rcases hT with hT | ⟨t, hT, hle⟩
      · rw [hT]
      · rw [hT]
        simpa using Nat.not_lt.mpr hle
    constructor
    · intro herr
      unfold report at herr
      rw [hTfalse] at herr
      simp only [Bool.false_eq_true, if_false] at herr
      split at herr
      · rename_i g2
        rw [hK] at g2
        simpa using g2
      · simp at herr
    · intro hlen
      unfold report
      rw [hTfalse]
      have g2 : (match limits.maxSteps with
          | some k => decide (steps.length ≥ k)
          | none => false) = true := by
        rw [hK]
        simpa using hlen
      rw [g2]
      simp
  · intro limits K raw o hK hreach
    have h1 : raw.length ≤ max 1 K := reach_length_le hK hreach
    have h2 : (recordSteps raw o).length ≤ raw.length := by
      unfold recordSteps
      rw [renumberFrom_length, filterSteps_length]
      calc ((raw.filter (fun s => passesNodeAndTimingFilters (fillConfig o) s)).filter
              (fun s => passesNameFilter s (fillConfig o).names)).length ≤
          (raw.filter (fun s => passesNodeAndTimingFilters (fillConfig o) s)).length :=
            List.length_filter_le _ _
        _ ≤ raw.length := List.length_filter_le _ _
    omega

/-- Witness for the amended C4: the iff at a concrete reporter state,
and the output bound for the seed trace with `maxSteps = 1`. -/
theorem C4_step_limit_amended_witness :
    ((report { maxSteps := some 1 } 0 [initStep Unit]
        { isExpressionNode := true, type := "Identifier", time := Timing.after } () [] =
        Except.error { kind := "steps", observed := 2 }) ↔
      1 ≤ ([initStep Unit] : List (RawStep Unit)).length) ∧
    (recordSteps [initStep Unit] ({} : Options)).length ≤ 1 + 1 :=
  ⟨by
    have h := (C4_step_limit_amended Unit).1 { maxSteps := some 1 } 1 0 [initStep Unit]
      { isExpressionNode := true, type := "Identifier", time := Timing.after } () []
      rfl (Or.inl rfl)
    simpa using h,
   (C4_step_limit_amended Unit).2 { maxSteps := some 1 } 1 [initStep Unit] {} rfl
    ReporterReachable.seed⟩

/-- C4 counterexample: with `maxSteps = 1` and `maxTime = 0` both set,
at `dt = 1` and a step list already holding `1 ≥ maxSteps` entries, the
reporter raises kind `time`, not kind `steps` — refuting that the steps
error is raised *exactly when* the list holds at least `maxSteps`
entries. -/
theorem C4_time_precedence_counterexample :
    report { maxSteps := some 1, maxTime := some 0 } 1 [initStep Unit]
        { isExpressionNode := true, type := "Identifier", time := Timing.after } () [] =
      Except.error { kind := "time", observed := 1 } ∧
    (∀ n : Nat,
      report { maxSteps := some 1, maxTime := some 0 } 1 [initStep Unit]
          { isExpressionNode := true, type := "Identifier", time := Timing.after } () [] ≠
        Except.error { kind := "steps", observed := n }) ∧
    1 ≤ ([initStep Unit] : List (RawStep Unit)).length := by
  refine ⟨rfl, ?_, by decide⟩
  intro n h
  rw [show report { maxSteps := some 1, maxTime := some 0 } 1 [initStep Unit]
      { isExpressionNode := true, type := "Identifier", time := Timing.after } () [] =
      Except.error { kind := "time", observed := 1 } from rfl] at h
  simp at h

/-! ### Describe invariants (C6, C7) -/

/-- The descriptor relation is stable under writer-map growth. -/
theorem valueMatchesDescriptor_mono {map map' : List (Nat × Nat)}
    (hm : MapExtends map map') {v : JSValue} {d : Descriptor}
    (h : valueMatchesDescriptor map v d) : valueMatchesDescriptor map' v d := by
  cases v <;> simp only [valueMatchesDescriptor] at h ⊢ <;> try exact h
  obtain ⟨j, hj, rfl⟩ := h
  exact ⟨j, hm _ _ hj, rfl⟩

/-- Described objects stay described when the map grows and their heap
slot is untouched. -/
theorem GoodAt_stable {store : Store} {heap : List HeapObject}
    {map : List (Nat × Nat)} {heap' : List HeapObject} {map' : List (Nat × Nat)}
    {a i : Nat} (h : GoodAt store heap map a i) (hm : MapExtends map map')
    (hpos : heap'[i]? = heap[i]?) : GoodAt store heap' map' a i := by
  obtain ⟨obj, es, h1, h2, h3⟩ := h
  exact ⟨obj, es, h1, hpos ▸ h2,
    List.Forall₂.imp (fun x y hab => ⟨hab.1, valueMatchesDescriptor_mono hm hab.2⟩) h3⟩


/-- Self lookup after consing a fresh map entry. -/
theorem mlookup_cons_self (a i : Nat) (map : List (Nat × Nat)) :
    mlookup ((a, i) :: map) a = some i := by
  simp [mlookup]

/-- Consing a fresh key extends the map conservatively. -/
theorem mapExtends_cons {map : List (Nat × Nat)} {a i : Nat}
    (h : mlookup map a = none) : MapExtends map ((a, i) :: map) := by
  intro b j hb
  simp only [mlookup]
  split
  · rename_i heq
    rw [heq] at h
    rw [h] at hb
    cases hb
  · exact hb

/-- The trivial describe-post contract. -/
theorem DescribePost.refl_post (store : Store) (heap : List HeapObject)
    (map : List (Nat × Nat)) : DescribePost store heap map heap map where
  hpre := ⟨le_rfl, fun _ _ => rfl⟩
  mapExt := fun _ _ h => h
  newGood := fun _ _ h => Or.inl h
  surj := fun i h1 h2 => absurd h2 (by omega)

/-- Describe-post contracts compose. -/
theorem DescribePost.trans_post {store : Store} {h0 : List HeapObject}
    {m0 : List (Nat × Nat)} {h1 : List HeapObject} {m1 : List (Nat × Nat)}
    {h2 : List HeapObject} {m2 : List (Nat × Nat)}
    (A : DescribePost store h0 m0 h1 m1) (B : DescribePost store h1 m1 h2 m2) :
    DescribePost store h0 m0 h2 m2 where
  hpre := ⟨le_trans A.hpre.1 B.hpre.1,
    fun i hi => (B.hpre.2 i (lt_of_lt_of_le hi A.hpre.1)).trans (A.hpre.2 i hi)⟩
  mapExt := fun a i h => B.mapExt a i (A.mapExt a i h)
  newGood := fun a i h => by
    rcases B.newGood a i h with h' | ⟨hge, hlt, hg⟩
    · rcases A.newGood a i h' with h'' | ⟨hge, hlt, hg⟩
      · exact Or.inl h''
      · exact Or.inr ⟨hge, lt_of_lt_of_le hlt B.hpre.1,
          GoodAt_stable hg B.mapExt (B.hpre.2 i hlt)⟩
    · exact Or.inr ⟨le_trans A.hpre.1 hge, hlt, hg⟩
  surj := fun i hge hlt => by
    by_cases hi : i < h1.length
    · obtain ⟨a, ha⟩ := A.surj i hge hi
      exact ⟨a, B.mapExt a i ha⟩
    · exact B.surj i (le_of_not_lt hi) hlt

/-- Left-to-right membership transport along a `Forall₂`. -/
theorem forall₂_mem_left {α β : Type} {R : α → β → Prop} {l1 : List α} {l2 : List β}
    (h : List.Forall₂ R l1 l2) {x : α} (hx : x ∈ l1) : ∃ y, y ∈ l2 ∧ R x y := by
  induction h with
  | nil => simp at hx
  | cons hab htail ih =>
    rcases List.mem_cons.mp hx with rfl | hx'
    · exact ⟨_, List.mem_cons_self _ _, hab⟩
    · obtain ⟨y, hy, hr⟩ := ih hx'
      exact ⟨y, List.mem_cons_of_mem _ hy, hr⟩

/-- Right-to-left membership transport along a `Forall₂`. -/
theorem forall₂_mem_right {α β : Type} {R : α → β → Prop} {l1 : List α} {l2 : List β}
    (h : List.Forall₂ R l1 l2) {y : β} (hy : y ∈ l2) : ∃ x, x ∈ l1 ∧ R x y := by
  induction h with
  | nil => simp at hy
  | cons hab htail ih =>
    rcases List.mem_cons.mp hy with rfl | hy'
    · exact ⟨_, List.mem_cons_self _ _, hab⟩
    · obtain ⟨x, hx, hr⟩ := ih hy'
      exact ⟨x, List.mem_cons_of_mem _ hx, hr⟩

/-- Assembly of the describe-post contract for a freshly described
object from the contract of its entry traversal. -/
theorem describe_ref_post {store : Store} {heap : List HeapObject}
    {map : List (Nat × Nat)} {a : Nat} {obj : StoreObj}
    {ents : List (String × Descriptor)} {heap2 : List HeapObject}
    {map2 : List (Nat × Nat)}
    (hl : mlookup map a = none) (hsa : store[a]? = some obj)
    (CP : DescribePost store (heap ++ [heapShell obj]) ((a, heap.length) :: map)
      heap2 map2)
    (CF : List.Forall₂
      (fun (se : String × JSValue) (he : String × Descriptor) =>
        he.1 = se.1 ∧ valueMatchesDescriptor map2 se.2 he.2) obj.entries ents) :
    DescribePost store heap map
      (heap2.set heap.length { heapShell obj with entries := ents }) map2 ∧
    valueMatchesDescriptor map2 (JSValue.ref a) (Descriptor.compound heap.length) := by
  have hlen1 : (heap ++ [heapShell obj]).length = heap.length + 1 := by simp
  have hatlt2 : heap.length < heap2.length := by
    have := CP.hpre.1
    omega
  have hsetlen :
      (heap2.set heap.length { heapShell obj with entries := ents }).length =
        heap2.length := List.length_set heap2 _ _
  have hlookA : mlookup map2 a = some heap.length :=
    CP.mapExt _ _ (mlookup_cons_self a heap.length map)
  have hheapAt :
      (heap2.set heap.length { heapShell obj with entries := ents })[heap.length]? =
        some { heapShell obj with entries := ents } := by
    simp [List.getElem?_set_self, hatlt2]
  have hGoodA : GoodAt store
      (heap2.set heap.length { heapShell obj with entries := ents }) map2 a
      heap.length := ⟨obj, ents, hsa, hheapAt, CF⟩
  refine ⟨⟨?_, ?_, ?_, ?_⟩, ⟨heap.length, hlookA, rfl⟩⟩
  · refine ⟨?_, ?_⟩
    · rw [hsetlen]
      omega
    · intro i hi
      rw [List.getElem?_set_ne (by omega : heap.length ≠ i)]
      rw [CP.hpre.2 i (by omega)]
      exact List.getElem?_append_left hi
  · exact fun b j hb => CP.mapExt b j (mapExtends_cons hl b j hb)
  · intro b j hb
    rcases CP.newGood b j hb with hb' | ⟨hge, hlt, hg⟩
    · by_cases hab : a = b
      · subst hab
        have hj : j = heap.length := by
          rw [mlookup_cons_self] at hb'
          exact (Option.some.injEq _ _ ▸ hb').symm
        subst hj
        exact Or.inr ⟨le_rfl, by rw [hsetlen]; exact hatlt2, hGoodA⟩
      · refine Or.inl ?_
        simpa [mlookup, hab] using hb'
    · refine Or.inr ⟨by omega, by rw [hsetlen]; exact hlt, ?_⟩
      refine GoodAt_stable hg (fun _ _ h => h) ?_
      exact List.getElem?_set_ne (by omega : heap.length ≠ j)
  · intro j hge hlt
    rw [hsetlen] at hlt
    by_cases hj : j = heap.length
    · subst hj
      exact ⟨a, hlookA⟩
    · exact CP.surj j (by omega) hlt

/-- The full traversal invariant of `describe`: every call obeys the
state-evolution contract and its result descriptor matches the input
value under the final map. -/
theorem describe_post (store : Store) : ∀ fuel : Nat,
    (∀ (v : JSValue) (heap : List HeapObject) (map : List (Nat × Nat)) (d : Descriptor)
        (heap' : List HeapObject) (map' : List (Nat × Nat)),
      describeGo store fuel v heap map = some (d, heap', map') →
      DescribePost store heap map heap' map' ∧ valueMatchesDescriptor map' v d) ∧
    (∀ (entries : List (String × JSValue)) (heap : List HeapObject)
        (map : List (Nat × Nat)) (ds : List (String × Descriptor))
        (heap' : List HeapObject) (map' : List (Nat × Nat)),
      describeEntries store fuel entries heap map = some (ds, heap', map') →
      DescribePost store heap map heap' map' ∧
      List.Forall₂
        (fun (se : String × JSValue) (he : String × Descriptor) =>
          he.1 = se.1 ∧ valueMatchesDescriptor map' se.2 he.2) entries ds) := by
  intro fuel
  induction fuel with
  | zero =>
    constructor
    · intro v heap map d heap' map' h
      simp [describeGo] at h
    · intro entries heap map ds heap' map' h
      cases entries with
      | nil =>
        simp only [describeEntries, Option.some.injEq, Prod.mk.injEq] at h
        obtain ⟨rfl, rfl, rfl⟩ := h
        exact ⟨DescribePost.refl_post store heap map, List.Forall₂.nil⟩
      | cons hd tl =>
        obtain ⟨k, v⟩ := hd
        simp [describeEntries] at h
  | succ fuel ih =>
    have hgo : ∀ (v : JSValue) (heap : List HeapObject) (map : List (Nat × Nat))
        (d : Descriptor) (heap' : List HeapObject) (map' : List (Nat × Nat)),
        describeGo store (fuel + 1) v heap map = some (d, heap', map') →
        DescribePost store heap map heap' map' ∧ valueMatchesDescriptor map' v d := by
      intro v heap map d heap' map' h
      cases v with
      | str s =>
        simp only [describeGo, Option.some.injEq, Prod.mk.injEq] at h
        obtain ⟨rfl, rfl, rfl⟩ := h
        exact ⟨DescribePost.refl_post store heap map, rfl⟩
      | bool b =>
        simp only [describeGo, Option.some.injEq, Prod.mk.injEq] at h
        obtain ⟨rfl, rfl, rfl⟩ := h
        exact ⟨DescribePost.refl_post store heap map, rfl⟩
      | num n =>
        simp only [describeGo, Option.some.injEq, Prod.mk.injEq] at h
        obtain ⟨rfl, rfl, rfl⟩ := h
        exact ⟨DescribePost.refl_post store heap map, rfl⟩
      | null =>
        simp only [describeGo, Option.some.injEq, Prod.mk.injEq] at h
        obtain ⟨rfl, rfl, rfl⟩ := h
        exact ⟨DescribePost.refl_post store heap map, rfl⟩
      | undef =>
        simp only [describeGo, Option.some.injEq, Prod.mk.injEq] at h
        obtain ⟨rfl, rfl, rfl⟩ := h
        exact ⟨DescribePost.refl_post store heap map, rfl⟩
      | sym uid descr =>
        simp only [describeGo, Option.some.injEq, Prod.mk.injEq] at h
        obtain ⟨rfl, rfl, rfl⟩ := h
        exact ⟨DescribePost.refl_post store heap map, rfl⟩
      | ref a =>
        simp only [describeGo] at h
        split at h
        · rename_i i hl
          simp only [Option.some.injEq, Prod.mk.injEq] at h
          obtain ⟨rfl, rfl, rfl⟩ := h
          exact ⟨DescribePost.refl_post store heap map, ⟨i, hl, rfl⟩⟩
        · rename_i hl
          split at h
          · simp at h
          · rename_i obj hsa
            split at h
            · simp at h
            · rename_i ents heap2 map2 hE
              simp only [Option.some.injEq, Prod.mk.injEq] at h
              obtain ⟨rfl, rfl, rfl⟩ := h
              obtain ⟨CP, CF⟩ := ih.2 _ _ _ _ _ _ hE
              exact describe_ref_post hl hsa CP CF
    refine ⟨hgo, ?_⟩
    intro entries heap map ds heap' map' h
    cases entries with
    | nil =>
      simp only [describeEntries, Option.some.injEq, Prod.mk.injEq] at h
      obtain ⟨rfl, rfl, rfl⟩ := h
      exact ⟨DescribePost.refl_post store heap map, List.Forall₂.nil⟩
    | cons hd tl =>
      obtain ⟨k, v⟩ := hd
      simp only [describeEntries] at h
      split at h
      · simp at h
      · rename_i d1 heap1 map1 h1
        split at h
        · simp at h
        · rename_i ds2 heap2 map2 h2
          simp only [Option.some.injEq, Prod.mk.injEq] at h
          obtain ⟨rfl, rfl, rfl⟩ := h
          obtain ⟨P1, V1⟩ := ih.1 v heap map d1 heap1 map1 h1
          obtain ⟨P2, F2⟩ := ih.2 tl heap1 map1 ds2 heap2 map2 h2
          exact ⟨P1.trans_post P2,
            List.Forall₂.cons ⟨rfl, valueMatchesDescriptor_mono P2.mapExt V1⟩ F2⟩

/-- The top-level consequences of the describe invariant: every map
entry points at a described object inside the heap, the result
descriptor matches the input value, and every heap slot is the image of
a map entry. -/
theorem describe_top {store : Store} {fuel : Nat} {v : JSValue} {d : Descriptor}
    {heap : List HeapObject} {map : List (Nat × Nat)}
    (h : describeGo store fuel v [] [] = some (d, heap, map)) :
    (∀ a i, mlookup map a = some i → i < heap.length ∧ GoodAt store heap map a i) ∧
    valueMatchesDescriptor map v d ∧
    (∀ i, i < heap.length → ∃ a, mlookup map a = some i) := by
  obtain ⟨P, hv⟩ := (describe_post store fuel).1 v [] [] d heap map h
  refine ⟨?_, hv, ?_⟩
  · intro a i hl
    rcases P.newGood a i hl with h' | ⟨_, hlt, hg⟩
    · simp [mlookup] at h'
    · exact ⟨hlt, hg⟩
  · intro i hi
    exact P.surj i (by simp) hi

/-- C7: the heap of a described value is self-contained — the top-level
compound index and every compound index stored in any heap entry lie
strictly below the heap's length. -/
theorem C7_heap_self_contained (store : Store) (v : JSValue) (fuel : Nat)
    (d : Descriptor) (heap : List HeapObject) (map : List (Nat × Nat))
    (h : describeGo store fuel v [] [] = some (d, heap, map)) :
    (∀ i, d = Descriptor.compound i → i < heap.length) ∧
    (∀ ho, ho ∈ heap → ∀ k j, (k, Descriptor.compound j) ∈ ho.entries →
      j < heap.length) := by
  obtain ⟨hgood, hv, hsurj⟩ := describe_top h
  constructor
  · intro i hd
    subst hd
    cases v <;> simp only [valueMatchesDescriptor] at hv <;>
      first
      | (obtain ⟨j, hj, hcomp⟩ := hv
         cases hcomp
         exact (hgood _ _ hj).1)
      | simp at hv
  · intro ho hmem k j hent
    obtain ⟨i, hi, hheap⟩ := List.mem_iff_getElem.mp hmem
    obtain ⟨a, ha⟩ := hsurj i hi
    obtain ⟨hlt, obj, es, hsa, hat, hF⟩ := hgood a i ha
    have hho : ho = { heapShell obj with entries := es } := by
      have hsome : heap[i]? = some ho := by
        rw [List.getElem?_eq_getElem hi, hheap]
      rw [hsome] at hat
      exact Option.some.inj hat
    subst hho
    have hent' : (k, Descriptor.compound j) ∈ es := hent
    obtain ⟨se, hsemem, hrel⟩ := forall₂_mem_right hF hent'
    rcases se with ⟨k', sv⟩
    have hmatch := hrel.2
    cases sv <;> simp only [valueMatchesDescriptor] at hmatch <;>
      first
      | (obtain ⟨j', hj', heq⟩ := hmatch
         cases heq
         exact (hgood _ _ hj').1)
      | simp at hmatch

/-! ### Undescribe invariants (C6) -/

/-- `setRevived` populates the target index. -/
theorem setRevived_self (r : List (Option StoreObj)) (i : Nat) (o : StoreObj) :
    (setRevived r i o)[i]? = some (some o) := by
  unfold setRevived
  have hlt : i < (r ++ List.replicate (i + 1 - r.length) none).length := by
    simp
    omega
  exact List.getElem?_set_self hlt

/-- `setRevived` preserves other populated indices exactly. -/
theorem setRevived_ne {r : List (Option StoreObj)} {i j : Nat} (hne : i ≠ j)
    (o : StoreObj) {o' : StoreObj} (h : r[j]? = some (some o')) :
    (setRevived r i o)[j]? = some (some o') := by
  unfold setRevived
  rw [List.getElem?_set_ne hne]
  have hj : j < r.length := by
    by_contra hc
    rw [List.getElem?_eq_none (le_of_not_lt hc)] at h
    cases h
  rw [List.getElem?_append_left hj]
  exact h

/-- `setRevived` populates no index other than its target. -/
theorem setRevived_populated_ne {r : List (Option StoreObj)} {i j : Nat}
    (hne : i ≠ j) {o : StoreObj} (h : Populated (setRevived r i o) j) :
    Populated r j := by
  obtain ⟨o', h⟩ := h
  unfold setRevived at h
  rw [List.getElem?_set_ne hne] at h
  by_cases hj : j < r.length
  · rw [List.getElem?_append_left hj] at h
    exact ⟨o', h⟩
  · rw [List.getElem?_append_right (le_of_not_lt hj)] at h
    rcases h2 : (List.replicate (i + 1 - r.length) (none : Option StoreObj))[j - r.length]?
        with _ | x
    · rw [h2] at h
      cases h
    · rw [h2] at h
      have hx : x = none := by
        have := List.getElem?_replicate (n := i + 1 - r.length)
          (a := (none : Option StoreObj)) (m := j - r.length)
        rw [h2] at this
        split at this
        · exact (Option.some.inj this.symm).symm ▸ rfl
        · cases this
      rw [hx] at h
      cases h

/-- Property assignment on the memoized object at `i`. -/
theorem appendEntry_self {r : List (Option StoreObj)} {i : Nat} {o : StoreObj}
    (h : r[i]? = some (some o)) (k : String) (v : JSValue) :
    (appendEntry r i k v)[i]? = some (some { o with entries := o.entries ++ [(k, v)] }) := by
  unfold appendEntry
  rw [h]
  have hi : i < r.length := by
    by_contra hc
    rw [List.getElem?_eq_none (le_of_not_lt hc)] at h
    cases h
  exact List.getElem?_set_self hi

/-- Property assignment does not touch other indices. -/
theorem appendEntry_ne {r : List (Option StoreObj)} {i j : Nat} (hne : i ≠ j)
    (k : String) (v : JSValue) : (appendEntry r i k v)[j]? = r[j]? := by
  unfold appendEntry
  split
  · exact List.getElem?_set_ne hne
  · rfl

/-- The undescribed-value relation is stable under populating more
indices. -/
theorem descriptorMatchesOut_mono {r r' : List (Option StoreObj)}
    (hpop : ∀ j, Populated r j → Populated r' j) {d : Descriptor} {v : JSValue}
    (h : descriptorMatchesOut r d v) : descriptorMatchesOut r' d v := by
  cases d <;> simp only [descriptorMatchesOut] at h ⊢ <;> try exact h
  exact ⟨h.1, hpop _ h.2⟩

/-- Revived objects stay revived when their slot is untouched and
population only grows. -/
theorem GoodOut_stable {heap : List HeapObject} {r r' : List (Option StoreObj)}
    {j : Nat} (h : GoodOut heap r j) (hslot : r'[j]? = r[j]?)
    (hpop : ∀ j', Populated r j' → Populated r' j') : GoodOut heap r' j := by
  obtain ⟨ho, es, h1, h2, h3⟩ := h
  exact ⟨ho, es, h1, hslot ▸ h2,
    List.Forall₂.imp (fun x y hab => ⟨hab.1, descriptorMatchesOut_mono hpop hab.2⟩) h3⟩

/-- Every placeholder object starts with no properties. -/
theorem outShell_entries (ho : HeapObject) : (outShell ho).entries = [] := by
  unfold outShell
  repeat' split
  all_goals rfl

/-- Mutual state-evolution contract of `undescribe`: already-revived
indices are untouched, every index that becomes populated during the call
is fully revived (its placeholder filled with undescribed entries), and
the returned value realizes the descriptor over the final revived
array. -/
theorem undescribe_post (heap : List HeapObject) : ∀ fuel : Nat,
    (∀ (d : Descriptor) (revived : List (Option StoreObj)) (fresh : Nat)
        (v : JSValue) (revived' : List (Option StoreObj)) (fresh' : Nat),
      undescribeGo heap fuel d revived fresh = some (v, revived', fresh') →
      (∀ (j : Nat) (o : StoreObj), revived[j]? = some (some o) →
        revived'[j]? = some (some o)) ∧
      (∀ j, ¬ Populated revived j → Populated revived' j →
        GoodOut heap revived' j) ∧
      descriptorMatchesOut revived' d v) ∧
    (∀ (entries : List (String × Descriptor)) (revived : List (Option StoreObj))
        (fresh : Nat) (i : Nat) (o0 : StoreObj)
        (revived' : List (Option StoreObj)) (fresh' : Nat),
      revived[i]? = some (some o0) →
      undescribeEntries heap fuel entries revived fresh i = some (revived', fresh') →
      (∀ (j : Nat) (o : StoreObj), j ≠ i → revived[j]? = some (some o) →
        revived'[j]? = some (some o)) ∧
      (∀ j, ¬ Populated revived j → Populated revived' j →
        GoodOut heap revived' j) ∧
      (∃ vs, revived'[i]? = some (some { o0 with entries := o0.entries ++ vs }) ∧
        List.Forall₂
          (fun (he : String × Descriptor) (oe : String × JSValue) =>
            oe.1 = he.1 ∧ descriptorMatchesOut revived' he.2 oe.2)
          entries vs)) := by
  intro fuel
  induction fuel with
  | zero =>
    constructor
    · intro d revived fresh v revived' fresh' h
      simp [undescribeGo] at h
    · intro entries revived fresh i o0 revived' fresh' hpop h
      cases entries with
      | nil =>
        simp only [undescribeEntries, Option.some.injEq, Prod.mk.injEq] at h
        obtain ⟨hr, hf⟩ := h
        subst hr
        refine ⟨fun j o _ hj => hj, fun j hnp hp => absurd hp hnp, [], ?_,
          List.Forall₂.nil⟩
        simpa using hpop
      | cons head rest =>
        obtain ⟨k, de⟩ := head
        simp [undescribeEntries] at h
  | succ fuel ih =>
    obtain ⟨ihGo, ihEnt⟩ := ih
    constructor
    · intro d revived fresh v revived' fresh' h
      cases d with
      | primStr s =>
        simp only [undescribeGo, Option.some.injEq, Prod.mk.injEq] at h
        obtain ⟨hv, hr, hf⟩ := h
        subst hv
        subst hr
        exact ⟨fun j o hj => hj, fun j hnp hp => absurd hp hnp, rfl⟩
      | primBool b =>
        simp only [undescribeGo, Option.some.injEq, Prod.mk.injEq] at h
        obtain ⟨hv, hr, hf⟩ := h
        subst hv
        subst hr
        exact ⟨fun j o hj => hj, fun j hnp hp => absurd hp hnp, rfl⟩
      | primNum n =>
        simp only [undescribeGo, Option.some.injEq, Prod.mk.injEq] at h
        obtain ⟨hv, hr, hf⟩ := h
        subst hv
        subst hr
        exact ⟨fun j o hj => hj, fun j hnp hp => absurd hp hnp, rfl⟩
      | primNull =>
        simp only [undescribeGo, Option.some.injEq, Prod.mk.injEq] at h
        obtain ⟨hv, hr, hf⟩ := h
        subst hv
        subst hr
        exact ⟨fun j o hj => hj, fun j hnp hp => absurd hp hnp, rfl⟩
      | primUndef =>
        simp only [undescribeGo, Option.some.injEq, Prod.mk.injEq] at h
        obtain ⟨hv, hr, hf⟩ := h
        subst hv
        subst hr
        exact ⟨fun j o hj => hj, fun j hnp hp => absurd hp hnp, rfl⟩
      | primSym s =>
        simp only [undescribeGo, Option.some.injEq, Prod.mk.injEq] at h
        obtain ⟨hv, hr, hf⟩ := h
        subst hv
        subst hr
        exact ⟨fun j o hj => hj, fun j hnp hp => absurd hp hnp, fresh, rfl⟩
      | compound i =>
        simp only [undescribeGo] at h
        split at h
        · rename_i o heq
          simp only [Option.some.injEq, Prod.mk.injEq] at h
          obtain ⟨hv, hr, hf⟩ := h
          subst hv
          subst hr
          exact ⟨fun j o hj => hj, fun j hnp hp => absurd hp hnp, rfl, o, heq⟩
        · rename_i hdflt
          split at h
          · cases h
          · rename_i ho hheap
            split at h
            · cases h
            · rename_i revived2 fresh2 hents
              simp only [Option.some.injEq, Prod.mk.injEq] at h
              obtain ⟨hv, hr, hf⟩ := h
              subst hv
              subst hr
              obtain ⟨EP1, EP2, vs, hvi, hF⟩ :=
                ihEnt ho.entries (setRevived revived i (outShell ho)) fresh i
                  (outShell ho) revived2 fresh2
                  (setRevived_self revived i (outShell ho)) hents
              have hvi' : revived2[i]? = some (some { outShell ho with entries := vs }) := by
                simpa [outShell_entries] using hvi
              have hji_of : ∀ j (o : StoreObj), revived[j]? = some (some o) → j ≠ i := by
                intro j o hj hj'
                subst hj'
                exact hdflt o hj
              refine ⟨?_, ?_, rfl, { outShell ho with entries := vs }, hvi'⟩
              · intro j o hj
                have hji := hji_of j o hj
                exact EP1 j o hji (setRevived_ne (Ne.symm hji) (outShell ho) hj)
              · intro j hnp hp
                by_cases hji : j = i
                · subst hji
                  exact ⟨ho, vs, hheap, hvi', hF⟩
                · refine EP2 j ?_ hp
                  intro hp1
                  exact hnp (setRevived_populated_ne (Ne.symm hji) hp1)
    · intro entries revived fresh i o0 revived' fresh' hpop h
      cases entries with
      | nil =>
        simp only [undescribeEntries, Option.some.injEq, Prod.mk.injEq] at h
        obtain ⟨hr, hf⟩ := h
        subst hr
        refine ⟨fun j o _ hj => hj, fun j hnp hp => absurd hp hnp, [], ?_,
          List.Forall₂.nil⟩
        simpa using hpop
      | cons head rest =>
        obtain ⟨k, de⟩ := head
        simp only [undescribeEntries] at h
        split at h
        · cases h
        · rename_i v1 r1 f1 hgo
          obtain ⟨G1, G2, G3⟩ := ihGo de revived fresh v1 r1 f1 hgo
          have hpop1 : r1[i]? = some (some o0) := G1 i o0 hpop
          have hpop2 : (appendEntry r1 i k v1)[i]? =
              some (some { o0 with entries := o0.entries ++ [(k, v1)] }) :=
            appendEntry_self hpop1 k v1
          obtain ⟨EP1, EP2, vs, hvi, hF⟩ :=
            ihEnt rest (appendEntry r1 i k v1) f1 i _ revived' fresh' hpop2 h
          have hmono : ∀ j, Populated r1 j → Populated revived' j := by
            intro j hpj
            by_cases hji : j = i
            · subst hji
              exact ⟨_, hvi⟩
            · obtain ⟨o, ho⟩ := hpj
              exact ⟨o, EP1 j o hji (by
                rw [appendEntry_ne (Ne.symm hji) k v1]
                exact ho)⟩
          refine ⟨?_, ?_, (k, v1) :: vs, ?_, ?_⟩
          · intro j o hji hj
            exact EP1 j o hji (by
              rw [appendEntry_ne (Ne.symm hji) k v1]
              exact G1 j o hj)
          · intro j hnp hp
            by_cases hji : j = i
            · subst hji
              exact absurd ⟨o0, hpop⟩ hnp
            · by_cases hpj : Populated r1 j
              · have hg : GoodOut heap r1 j := G2 j hnp hpj
                refine GoodOut_stable hg ?_ hmono
                obtain ⟨o, ho⟩ := hpj
                rw [EP1 j o hji (by
                  rw [appendEntry_ne (Ne.symm hji) k v1]
                  exact ho)]
                exact ho.symm
              · refine EP2 j ?_ hp
                intro hp2
                obtain ⟨o, ho⟩ := hp2
                refine hpj ⟨o, ?_⟩
                rw [appendEntry_ne (Ne.symm hji) k v1] at ho
                exact ho
          · rw [List.append_assoc] at hvi
            exact hvi
          · exact List.Forall₂.cons ⟨rfl, descriptorMatchesOut_mono hmono G3⟩ hF

/-- Top-level contract of `undescribe(described)`: starting from an empty
revived array, every populated index of the result is fully revived and
the returned value realizes the descriptor. -/
theorem undescribe_top {heap : List HeapObject} {fuel : Nat} {d : Descriptor}
    {fresh : Nat} {v : JSValue} {out : List (Option StoreObj)} {fresh' : Nat}
    (h : undescribeGo heap fuel d [] fresh = some (v, out, fresh')) :
    (∀ j, Populated out j → GoodOut heap out j) ∧ descriptorMatchesOut out d v := by
  obtain ⟨P1, P2, P3⟩ := (undescribe_post heap fuel).1 d [] fresh v out fresh' h
  refine ⟨?_, P3⟩
  intro j hp
  refine P2 j ?_ hp
  intro hcontra
  obtain ⟨o, ho⟩ := hcontra
  simp at ho

/-- Pointwise relation of two lists gives a related partner for every
member of the left list. -/
theorem forall2_mem_left {α β : Type _} {R : α → β → Prop} :
    ∀ {l1 : List α} {l2 : List β}, List.Forall₂ R l1 l2 →
      ∀ {x : α}, x ∈ l1 → ∃ y ∈ l2, R x y := by
  intro l1 l2 h
  induction h with
  | nil =>
    intro x hx
    cases hx
  | cons hR hF ih =>
    intro x hx
    rcases List.mem_cons.mp hx with rfl | hx'
    · exact ⟨_, List.mem_cons_self .., hR⟩
    · obtain ⟨y, hy, hRy⟩ := ih hx'
      exact ⟨y, List.mem_cons_of_mem _ hy, hRy⟩

/-- Transport of an edge chain along a simulation: if every `F`-related
node maps `R`-edges to `S`-edges, a chain in `R` starting at an
`F`-related node maps to a chain in `S`. -/
theorem chain_transport {R S F : Nat → Nat → Prop}
    (hstep : ∀ a b i, F a i → R a b → ∃ j, F b j ∧ S i j) :
    ∀ (l : List Nat) (a i : Nat), F a i → List.Chain R a l →
      ∃ l', List.Chain S i l' ∧ List.Forall₂ F l l' := by
  intro l
  induction l with
  | nil =>
    intro a i hF hc
    exact ⟨[], List.Chain.nil, List.Forall₂.nil⟩
  | cons b l ih =>
    intro a i hF hc
    cases hc with
    | cons hR hc' =>
      obtain ⟨j, hFb, hS⟩ := hstep a b i hF hR
      obtain ⟨l', hcl, hFl⟩ := ih b j hFb hc'
      exact ⟨j :: l', List.Chain.cons hS hcl, List.Forall₂.cons hFb hFl⟩

/-- A `Forall₂` over a list ending in a singleton splits at the end. -/
theorem forall2_append_singleton {α β : Type _} {F : α → β → Prop} :
    ∀ {l1 : List α} {x : α} {l2 : List β}, List.Forall₂ F (l1 ++ [x]) l2 →
      ∃ l2' y, l2 = l2' ++ [y] ∧ List.Forall₂ F l1 l2' ∧ F x y := by
  intro l1
  induction l1 with
  | nil =>
    intro x l2 h
    cases h with
    | cons hF htl =>
      cases htl with
      | nil => exact ⟨[], _, rfl, List.Forall₂.nil, hF⟩
  | cons a l1 ih =>
    intro x l2 h
    cases h with
    | cons hF htl =>
      obtain ⟨l2', y, rfl, hFl, hFx⟩ := ih htl
      exact ⟨_ :: l2', y, rfl, List.Forall₂.cons hF hFl, hFx⟩

/-- An edge of the input graph between described addresses becomes an
edge of the serialized heap between their `at` indices. -/
theorem described_edge {store : Store} {heap : List HeapObject}
    {map : List (Nat × Nat)}
    (hgood : ∀ a i, mlookup map a = some i →
      i < heap.length ∧ GoodAt store heap map a i)
    {a b i : Nat} (ha : mlookup map a = some i) (he : StoreEdge store a b) :
    ∃ j, mlookup map b = some j ∧ HeapEdge heap i j := by
  obtain ⟨_, obj, es, hsa, hat, hF⟩ := hgood a i ha
  obtain ⟨obj', k, hsa', hmem⟩ := he
  rw [hsa] at hsa'
  obtain rfl := Option.some.inj hsa'
  obtain ⟨he2, hmem2, hk, hvm⟩ := forall2_mem_left hF hmem
  obtain ⟨j, hj, hcomp⟩ := hvm
  refine ⟨j, hj, { heapShell obj with entries := es }, he2.1, hat, ?_⟩
  rw [← hcomp]
  exact hmem2

/-- An edge of the serialized heap out of a revived index becomes an edge
of the revived output graph, and its target is revived too. -/
theorem revived_edge {heap : List HeapObject} {out : List (Option StoreObj)}
    (hout : ∀ j, Populated out j → GoodOut heap out j)
    {i j : Nat} (hpi : Populated out i) (hhe : HeapEdge heap i j) :
    OutEdge out i j ∧ Populated out j := by
  obtain ⟨ho, es, hhi, hoi, hF⟩ := hout i hpi
  obtain ⟨ho', k, hhi', hmem⟩ := hhe
  rw [hhi] at hhi'
  obtain rfl := Option.some.inj hhi'
  obtain ⟨oe, hmem2, hk, hdm⟩ := forall2_mem_left hF hmem
  obtain ⟨href, hpj⟩ := hdm
  refine ⟨⟨{ outShell ho with entries := es }, oe.1, hoi, ?_⟩, hpj⟩
  rw [← href]
  exact hmem2

/-- Every address reachable from the described value is in the writer
map, and its heap index is revived by `undescribe` (given the base case
for the root reference). -/
theorem reaches_populated_aux {store : Store} {heap : List HeapObject}
    {map : List (Nat × Nat)} {out : List (Option StoreObj)}
    (hgood : ∀ a i, mlookup map a = some i →
      i < heap.length ∧ GoodAt store heap map a i)
    (hout : ∀ j, Populated out j → GoodOut heap out j) :
    ∀ {w : JSValue} {a : Nat}, Reaches store w a →
      (∀ b, w = JSValue.ref b → ∃ i, mlookup map b = some i ∧ Populated out i) →
      ∃ i, mlookup map a = some i ∧ Populated out i := by
  intro w a hr
  induction hr with
  | root b =>
    intro hroot
    exact hroot b rfl
  | step hr' hedge ih =>
    intro hroot
    obtain ⟨i, hi, hpi⟩ := ih hroot
    obtain ⟨j, hj, hhe⟩ := described_edge hgood hi hedge
    exact ⟨j, hj, (revived_edge hout hpi hhe).2⟩

/-- C6 (amended): the describe/undescribe round trip preserves every
non-symbol primitive identically; a symbol comes back as a *fresh* symbol
whose description is the capture of `/^Symbol\((.*)\)$/` applied to the
original's string form; the length of an array is preserved provided the
array is detected as one (it is not callable and does not carry both
`then` and `catch` properties, which would make `describe` treat it as a
function or promise); and every cycle of the input graph that is
reachable from the described value maps, through the writer map's `at`
indices, to a matching cycle of the revived output graph. -/
theorem C6_roundtrip_amended :
    (∀ (store : Store) (s : String) (fresh : Nat),
      roundtripVal store (JSValue.str s) fresh = some (JSValue.str s)) ∧
    (∀ (store : Store) (b : Bool) (fresh : Nat),
      roundtripVal store (JSValue.bool b) fresh = some (JSValue.bool b)) ∧
    (∀ (store : Store) (n : Int) (fresh : Nat),
      roundtripVal store (JSValue.num n) fresh = some (JSValue.num n)) ∧
    (∀ (store : Store) (fresh : Nat),
      roundtripVal store JSValue.null fresh = some JSValue.null) ∧
    (∀ (store : Store) (fresh : Nat),
      roundtripVal store JSValue.undef fresh = some JSValue.undef) ∧
    (∀ (store : Store) (uid : Nat) (descr : Option String) (fresh : Nat),
      roundtripVal store (JSValue.sym uid descr) fresh =
        some (JSValue.sym fresh (parseSymbolDescr (symbolToString descr)))) ∧
    (∀ (store : Store) (a : Nat) (obj : StoreObj) (fresh : Nat) (vout : JSValue)
        (out : List (Option StoreObj)) (fresh' : Nat),
      store[a]? = some obj → obj.callable = false →
      (obj.hasThen && obj.hasCatch) = false → obj.isArray = true →
      roundtrip store (JSValue.ref a) fresh = some (vout, out, fresh') →
      ∃ i o, vout = JSValue.ref i ∧ out[i]? = some (some o) ∧
        o.isArray = true ∧ o.length = obj.length) ∧
    (∀ (store : Store) (v : JSValue) (fresh : Nat) (d : Descriptor)
        (heap : List HeapObject) (map : List (Nat × Nat)) (vout : JSValue)
        (out : List (Option StoreObj)) (fresh' : Nat) (cyc : List Nat),
      describeVal store v = some (d, heap, map) →
      undescribeVal d heap fresh = some (vout, out, fresh') →
      IsCycle (StoreEdge store) cyc →
      (∀ a ∈ cyc, Reaches store v a) →
      ∃ cyc', IsCycle (OutEdge out) cyc' ∧
        List.Forall₂ (fun a i => mlookup map a = some i) cyc cyc') := by
  refine ⟨fun store s fresh => rfl, fun store b fresh => rfl,
    fun store n fresh => rfl, fun store fresh => rfl, fun store fresh => rfl,
    fun store uid descr fresh => rfl, ?_, ?_⟩
  · intro store a obj fresh vout out fresh' hsa hcall hthen harr h
    unfold roundtrip at h
    split at h
    · cases h
    · rename_i d heap m heq
      obtain ⟨hgood, hvd, _⟩ := describe_top heq
      simp only [valueMatchesDescriptor] at hvd
      obtain ⟨i, hi, hdj⟩ := hvd
      subst hdj
      obtain ⟨hout, hdm⟩ := undescribe_top h
      simp only [descriptorMatchesOut] at hdm
      obtain ⟨hvout, hpop⟩ := hdm
      obtain ⟨_, obj', es, hsa', hat, hFdesc⟩ := hgood a i hi
      rw [hsa] at hsa'
      obtain rfl := Option.some.inj hsa'
      obtain ⟨ho, es2, hhi, hoi, hFout⟩ := hout i hpop
      rw [hat] at hhi
      obtain rfl := Option.some.inj hhi
      have hshell : heapShell obj =
          { type := HeapType.array, entries := [], length := some obj.length,
            cname := none } := by
        simp [heapShell, hcall, hthen, harr]
      refine ⟨i, { outShell { heapShell obj with entries := es }
        with entries := es2 }, hvout, hoi, ?_, ?_⟩
      · rw [hshell]
        rfl
      · rw [hshell]
        rfl
  · intro store v fresh d heap map vout out fresh' cyc hdesc hund hcyc hreach
    obtain ⟨hgood, hvd, _⟩ := describe_top hdesc
    obtain ⟨hout, hdm⟩ := undescribe_top hund
    cases cyc with
    | nil => exact absurd hcyc (by simp [IsCycle])
    | cons a0 rest =>
      have hreach0 : Reaches store v a0 := hreach a0 (List.mem_cons_self a0 rest)
      have hroot : ∀ b, v = JSValue.ref b →
          ∃ i, mlookup map b = some i ∧ Populated out i := by
        intro b hvb
        subst hvb
        simp only [valueMatchesDescriptor] at hvd
        obtain ⟨j, hj, hdj⟩ := hvd
        subst hdj
        simp only [descriptorMatchesOut] at hdm
        exact ⟨j, hj, hdm.2⟩
      obtain ⟨i0, hm0, hp0⟩ := reaches_populated_aux hgood hout hreach0 hroot
      have hstep : ∀ a b i, (mlookup map a = some i ∧ Populated out i) →
          StoreEdge store a b →
          ∃ j, (mlookup map b = some j ∧ Populated out j) ∧ OutEdge out i j := by
        intro a b i hF he
        obtain ⟨j, hj, hhe⟩ := described_edge hgood hF.1 he
        obtain ⟨hoe, hpj⟩ := revived_edge hout hF.2 hhe
        exact ⟨j, ⟨hj, hpj⟩, hoe⟩
      obtain ⟨l', hchain, hF2⟩ :=
        chain_transport hstep (rest ++ [a0]) a0 i0 ⟨hm0, hp0⟩ hcyc
      obtain ⟨l1', y, rfl, hF1, hFa0⟩ := forall2_append_singleton hF2
      obtain rfl := Option.some.inj (hm0.symm.trans hFa0.1)
      exact ⟨i0 :: l1', hchain,
        List.Forall₂.cons hm0 (List.Forall₂.imp (fun x y h => h.1) hF1)⟩

/-- C6 (counterexample to the original claim): the round trip does not
preserve every primitive identically, nor every array's length.  A symbol
comes back as a different symbol (`undescribe` calls `Symbol(...)`, which
creates a fresh one — here uid 1 instead of 0).  An array carrying `then`
and `catch` properties is detected as a promise by `describe`, so its
array-ness and length (here 2) are lost: `undescribe` revives it as a
never-settling fake promise of length 0. -/
theorem C6_roundtrip_counterexample :
    roundtripVal [] (JSValue.sym 0 (some "a")) 1 ≠
      some (JSValue.sym 0 (some "a")) ∧
    roundtrip
      [({ callable := false, hasThen := true, hasCatch := true, isArray := true,
          length := 2, cname := "Array", entries := [] } : StoreObj)]
      (JSValue.ref 0) 0 =
      some (JSValue.ref 0,
        [some ({ callable := false, hasThen := true, hasCatch := true,
                 isArray := false, length := 0, cname := "Promise",
                 entries := [] } : StoreObj)], 0) := by
  decide

/-- C6 (witness): the amended round-trip theorem applied to a concrete
array of length 3 and to a concrete two-object reference cycle. -/
theorem C6_roundtrip_amended_witness :
    (∃ i o, JSValue.ref 0 = JSValue.ref i ∧
      ([some ({ callable := false, hasThen := false, hasCatch := false,
                isArray := true, length := 3, cname := "Array",
                entries := [] } : StoreObj)] :
        List (Option StoreObj))[i]? = some (some o) ∧
      o.isArray = true ∧
      o.length = ({ callable := false, hasThen := false, hasCatch := false,
                    isArray := true, length := 3, cname := "Array",
                    entries := [] } : StoreObj).length) ∧
    (∃ cyc', IsCycle (OutEdge
        [some ({ callable := false, hasThen := false, hasCatch := false,
                 isArray := false, length := 0, cname := "Object",
                 entries := [("a", JSValue.ref 1)] } : StoreObj),
         some ({ callable := false, hasThen := false, hasCatch := false,
                 isArray := false, length := 0, cname := "Object",
                 entries := [("b", JSValue.ref 0)] } : StoreObj)]) cyc' ∧
      List.Forall₂ (fun a i => mlookup [(1, 1), (0, 0)] a = some i)
        [0, 1] cyc') := by
  constructor
  · exact C6_roundtrip_amended.2.2.2.2.2.2.1
      [⟨false, false, false, true, 3, "Array", []⟩] 0
      ⟨false, false, false, true, 3, "Array", []⟩ 0 (JSValue.ref 0)
      [some ⟨false, false, false, true, 3, "Array", []⟩] 0
      rfl rfl rfl rfl (by decide)
  · exact C6_roundtrip_amended.2.2.2.2.2.2.2
      [⟨false, false, false, false, 0, "Object", [("a", JSValue.ref 1)]⟩,
       ⟨false, false, false, false, 0, "Object", [("b", JSValue.ref 0)]⟩]
      (JSValue.ref 0) 0 (Descriptor.compound 0)
      [⟨HeapType.object, [("a", Descriptor.compound 1)], none, some "Object"⟩,
       ⟨HeapType.object, [("b", Descriptor.compound 0)], none, some "Object"⟩]
      [(1, 1), (0, 0)] (JSValue.ref 0)
      [some ⟨false, false, false, false, 0, "Object", [("a", JSValue.ref 1)]⟩,
       some ⟨false, false, false, false, 0, "Object", [("b", JSValue.ref 0)]⟩]
      0 [0, 1]
      (by decide) (by decide)
      (by
        exact List.Chain.cons
          ⟨⟨false, false, false, false, 0, "Object", [("a", JSValue.ref 1)]⟩,
            "a", rfl, by decide⟩
          (List.Chain.cons
            ⟨⟨false, false, false, false, 0, "Object", [("b", JSValue.ref 0)]⟩,
              "b", rfl, by decide⟩
            List.Chain.nil))
      (by
        intro a ha
        rcases List.mem_cons.mp ha with rfl | ha'
        · exact Reaches.root 0
        · rcases List.mem_cons.mp ha' with rfl | h''
          · exact Reaches.step (Reaches.root 0)
              ⟨⟨false, false, false, false, 0, "Object", [("a", JSValue.ref 1)]⟩,
                "a", rfl, by decide⟩
          · exact absurd h'' (List.not_mem_nil a))

/-- C7 (witness): the self-containment theorem applied to the describe
result of a concrete self-referencing object. -/
theorem C7_heap_self_contained_witness :
    (∀ i, Descriptor.compound 0 = Descriptor.compound i →
      i < [({ type := HeapType.object,
              entries := [("self", Descriptor.compound 0)],
              length := none, cname := some "Object" } : HeapObject)].length) ∧
    (∀ ho, ho ∈ [({ type := HeapType.object,
                    entries := [("self", Descriptor.compound 0)],
                    length := none, cname := some "Object" } : HeapObject)] →
      ∀ k j, (k, Descriptor.compound j) ∈ ho.entries →
        j < [({ type := HeapType.object,
                entries := [("self", Descriptor.compound 0)],
                length := none, cname := some "Object" } : HeapObject)].length) :=
  C7_heap_self_contained
    [⟨false, false, false, false, 0, "Object", [("self", JSValue.ref 0)]⟩]
    (JSValue.ref 0) 4 (Descriptor.compound 0)
    [⟨HeapType.object, [("self", Descriptor.compound 0)], none, some "Object"⟩]
    [(0, 0)] (by decide)

end JsKlve
